import Mathlib

/-!
Verification development for the rush packet-processing engine
(a Rust re-implementation of the Snabb dataplane model).

The Rust modules `packet.rs`, `link.rs`, `engine.rs`, `basic_apps.rs` and
`ixy82599/ixgbe.rs` are shallowly embedded below.  Mutable global state
(the engine statistics and the packet freelist) is threaded explicitly as
a `Sys` value; Rust panics are modelled by `Option` (`none` = abort);
machine integers are modelled as `Nat` (the counters are `u64` and never
approach `2^64` in the properties considered; the ring cursors are masked
into `[0, 1023]` by the code itself, where `x & (SIZE-1)` for the
power-of-two `SIZE` equals `x % SIZE`).
-/

namespace Rush

/-! ## packet.rs -/

/-- `PAYLOAD_SIZE`: the maximum amount of payload in any given packet. -/
def PAYLOAD_SIZE : Nat := 1024 * 10

/-- A packet of network data: `length : u16` and `data : [u8; PAYLOAD_SIZE]`.
The payload array is modelled as a function from byte index to byte value
(only indices below `PAYLOAD_SIZE` are ever touched by the code). -/
structure Packet where
  length : Nat
  data : Nat → Nat

/-- `new_packet()` from packet.rs: heap-allocates an all-zero packet. -/
def new_packet : Packet := { length := 0, data := fun _ => 0 }

/-- `FREELIST_SIZE`: number of packets initially on the freelist. -/
def FREELIST_SIZE : Nat := 100000

/-- Counters for global engine statistics (engine.rs `EngineStats`). -/
structure EngineStats where
  breaths : Nat
  frees : Nat
  freebits : Nat
  freebytes : Nat

/-- The process-global mutable state threaded through the model: the
engine statistics (engine.rs `STATS`) and the packet freelist
(packet.rs `FL`): an array of packets with a fill counter `nfree`,
modelled as a stack `fl` whose head is `FL.list[nfree-1]`, together with
the counter itself (the code tests the counter, not the array). -/
structure Sys where
  stats : EngineStats
  fl : List Packet
  nfree : Nat

/-- The process state right after `packet::init()` in a fresh process:
all statistics zero, freelist populated with `FREELIST_SIZE` zeroed
packets. -/
def initSys : Sys :=
  { stats := { breaths := 0, frees := 0, freebits := 0, freebytes := 0 },
    fl := List.replicate FREELIST_SIZE new_packet,
    nfree := FREELIST_SIZE }

namespace packet

/-- packet.rs `allocate()`: take a packet off the freelist
(`panic!("Packet freelist underflow")` when `FL.nfree == 0`, modelled as
`none`). -/
def allocate (s : Sys) : Option (Packet × Sys) :=
  if s.nfree = 0 then none
  else
    match s.fl with
    | [] => none
    | p :: rest => some (p, { s with fl := rest, nfree := s.nfree - 1 })

/-- packet.rs `free_internal`: zero the length and push the packet back
onto the freelist (`panic!("Packet freelist overflow")` when
`FL.nfree == FREELIST_SIZE`). -/
def free_internal (p : Packet) (s : Sys) : Option Sys :=
  if s.nfree = FREELIST_SIZE then none
  else some { s with fl := { p with length := 0 } :: s.fl, nfree := s.nfree + 1 }

/-- packet.rs `free`: account the freed packet in the engine statistics
(`add_frees`, `add_freebytes`, `add_freebits` with the 10GbE on-wire cost
`(max(length,46) + 4 + 5) * 8`) and return it to the freelist. -/
def free (p : Packet) (s : Sys) : Option Sys :=
  free_internal p
    { s with stats :=
      { s.stats with
        frees := s.stats.frees + 1,
        freebytes := s.stats.freebytes + p.length,
        freebits := s.stats.freebits + (max p.length 46 + 4 + 5) * 8 } }

end packet

/-! ## lib.rs -/

namespace lib

/-- lib.rs `fill(dst, len, val)`: write `val` to the first
`min(len, dst.len())` bytes of `dst`; the destination is always the
`PAYLOAD_SIZE`-byte payload array here. -/
def fill (dst : Nat → Nat) (len : Nat) (val : Nat) : Nat → Nat :=
  fun i => if i < min len PAYLOAD_SIZE then val else dst i

end lib

/-! ## link.rs -/

/-- Size of the ring buffer. -/
def LINK_RING_SIZE : Nat := 1024

/-- Capacity of a Link. -/
def LINK_MAX_PACKETS : Nat := LINK_RING_SIZE - 1

/-- link.rs `Link`: a circular ring buffer of packets with `read`/`write`
cursors and tx/rx statistics.  The `packets` array of raw pointers is
modelled as a function from slot index to packet; the null pointers of a
fresh link are modelled by the placeholder `new_packet` (the code never
reads a slot it has not written: `receive` is guarded by `empty`). -/
structure Link where
  packets : Nat → Packet
  read : Nat
  write : Nat
  txpackets : Nat
  txbytes : Nat
  txdrop : Nat
  rxpackets : Nat
  rxbytes : Nat

namespace link

/-- link.rs `new()`: an empty link, cursors zero, counters zero. -/
def new : Link :=
  { packets := fun _ => new_packet,
    read := 0, write := 0,
    txpackets := 0, txbytes := 0, txdrop := 0,
    rxpackets := 0, rxbytes := 0 }

/-- link.rs `empty(r)`: `r.read == r.write`. -/
def empty (r : Link) : Bool := r.read == r.write

/-- link.rs `full(r)`: `(r.write + 1) & (SIZE - 1) == r.read`; the mask
by `SIZE - 1 = 1023` is `mod 1024`. -/
def full (r : Link) : Bool := (r.write + 1) % LINK_RING_SIZE == r.read

/-- link.rs `receive(r)`: `panic!("Link underflow.")` on an empty link
(modelled as `none`); otherwise take the packet at the `read` cursor,
advance `read` (masked), and account `rxpackets`/`rxbytes`. -/
def receive (r : Link) : Option (Packet × Link) :=
  if empty r then none
  else
    let p := r.packets r.read
    some (p, { r with
      read := (r.read + 1) % LINK_RING_SIZE,
      rxpackets := r.rxpackets + 1,
      rxbytes := r.rxbytes + p.length })

/-- link.rs `transmit(r, p)`: on a full link count `txdrop` and free the
packet (which touches the global statistics, hence the threaded `Sys`);
otherwise account `txpackets`/`txbytes`, store the packet at the `write`
cursor and advance `write` (masked).  The only `none` comes from the
freelist-overflow panic inside `packet::free`. -/
def transmit (r : Link) (p : Packet) (s : Sys) : Option (Link × Sys) :=
  if full r then
    match packet.free p s with
    | none => none
    | some s2 => some ({ r with txdrop := r.txdrop + 1 }, s2)
  else
    some ({ r with
      txpackets := r.txpackets + 1,
      txbytes := r.txbytes + p.length,
      packets := fun i => if i = r.write then p else r.packets i,
      write := (r.write + 1) % LINK_RING_SIZE }, s)

/-- Occupancy of the ring: `(write - read) mod SIZE`, written without
integer subtraction (the cursors live in `[0, SIZE)`). -/
def occupancy (r : Link) : Nat :=
  (r.write + LINK_RING_SIZE - r.read) % LINK_RING_SIZE

end link

/-! ## engine.rs constants -/

/-- engine.rs `PULL_NPACKETS`: recommended number of packets to inhale in
`pull()`, `LINK_MAX_PACKETS / 10`. -/
def PULL_NPACKETS : Nat := LINK_MAX_PACKETS / 10

/-! ## basic_apps.rs: the Source(60) -> Sink scenario (claim C1)

`SourceApp::pull` allocates `PULL_NPACKETS` packets per output link,
fills them and transmits them; `SinkApp::push` drains each input link,
freeing every packet.  In the two-app network below the inhale phase
invokes `pull` on both apps but only the source's does anything (the
`App` trait's default `pull`/`push` are no-ops), and symmetrically for
the exhale phase, so the engine's `app_table` iteration order is
irrelevant to the resulting state. -/

/-- The inner loop of `SourceApp::pull` for one output link: `n` times
allocate a packet, `lib::fill` its payload with zeros, set its length,
and `link::transmit` it. -/
def sourcePullLoop (size : Nat) : Nat → Link → Sys → Option (Link × Sys)
  | 0, l, s => some (l, s)
  | n + 1, l, s =>
    match packet.allocate s with
    | none => none
    | some (p, s) =>
      let p := { p with data := lib.fill p.data size 0, length := size }
      match link.transmit l p s with
      | none => none
      | some (l, s) => sourcePullLoop size n l s

/-- `SinkApp::push` for one input link: `while !empty { free(receive) }`.
The loop terminates because each `receive` strictly decreases the ring
occupancy, which is below `LINK_RING_SIZE`; the fuel `LINK_RING_SIZE`
therefore never runs out before the link is empty. -/
def sinkDrain : Nat → Link → Sys → Option (Link × Sys)
  | 0, l, s => some (l, s)
  | n + 1, l, s =>
    if link.empty l then some (l, s)
    else
      match link.receive l with
      | none => some (l, s)
      | some (p, l) =>
        match packet.free p s with
        | none => none
        | some s => sinkDrain n l s

/-- One breath (engine.rs `breathe`) of the two-app network
`source: Source{size}` -> `sink: Sink` over the single link: inhale
(source `pull`; the sink's default `pull` is a no-op), exhale (sink
`push`; the source's default `push` is a no-op), then count the breath. -/
def breatheSourceSink (size : Nat) (l : Link) (s : Sys) : Option (Link × Sys) :=
  match sourcePullLoop size PULL_NPACKETS l s with
  | none => none
  | some (l, s) =>
    match sinkDrain LINK_RING_SIZE l s with
    | none => none
    | some (l, s) =>
      some (l, { s with stats := { s.stats with breaths := s.stats.breaths + 1 } })

/-- The observable counters of the C1 scenario after one breath from a
fresh engine: link `txpackets, rxpackets, txbytes, rxbytes, txdrop` and
engine `frees, freebytes, freebits`. -/
def sourceSinkObservation : Option (Nat × Nat × Nat × Nat × Nat × Nat × Nat × Nat) :=
  (breatheSourceSink 60 link.new initSys).map fun ls =>
    (ls.1.txpackets, ls.1.rxpackets, ls.1.txbytes, ls.1.rxbytes, ls.1.txdrop,
     ls.2.stats.frees, ls.2.stats.freebytes, ls.2.stats.freebits)

/-! ## Sequences of link operations (claim C4) -/

/-- An operation a client may apply to a link: enqueue a given packet
(`link::transmit`) or dequeue (`link::receive`, handing the packet to
the caller). -/
inductive LinkOp where
  | tx (p : Packet)
  | rx

/-- Run a sequence of link operations; `none` models a panic aborting
the run (link underflow on `receive`, or freelist overflow inside a
dropping `transmit`).  The packet returned by `receive` is owned by the
caller and leaves the model. -/
def runLinkOps : List LinkOp → Link → Sys → Option (Link × Sys)
  | [], l, s => some (l, s)
  | LinkOp.tx p :: ops, l, s =>
    match link.transmit l p s with
    | none => none
    | some (l, s) => runLinkOps ops l s
  | LinkOp.rx :: ops, l, s =>
    match link.receive l with
    | none => none
    | some (_, l) => runLinkOps ops l s

/-! ## Breath ordering (claim C6)

engine.rs `breathe` runs `pull` on every app in `app_table.values()`
order, then `push` on every app in the same `app_table.values()` order
(the `App` trait gives both callbacks no-op defaults, so *every* app is
invoked in both phases).  `app_table` is a `std::collections::HashMap`
whose iteration order is a function of its randomly seeded hasher: it is
fixed within one process but not across runs.  The iteration order is
therefore a parameter of the model. -/

/-- The invocation trace of one `breathe` given the `app_table`
iteration order: the inhale phase (`true` = `pull`) over all apps,
followed by the exhale phase (`false` = `push`) over all apps. -/
def breatheTrace (order : List String) : List (String × Bool) :=
  order.map (fun n => (n, true)) ++ order.map (fun n => (n, false))

/-! ## Breathing regulation (claim C7) -/

/-- engine.rs `MAXSLEEP`: longest pause between breaths, in microseconds. -/
def MAXSLEEP : Nat := 100

/-- engine.rs `pace_breathing()`, as a function of the statics it reads
and writes: given the current `STATS.frees`, `LASTFREES` and `SLEEP`,
return the new `SLEEP`, the new `LASTFREES`, and `some µs` when the
engine sleeps for `µs` microseconds (`none` when no sleep is issued). -/
def pace_breathing (frees lastfrees sleep : Nat) : Nat × Nat × Option Nat :=
  if lastfrees = frees then
    (min (sleep + 1) MAXSLEEP, frees, some (min (sleep + 1) MAXSLEEP))
  else
    (sleep / 2, frees, none)

/-- `k` consecutive idle pacing steps (breaths in which `STATS.frees`
did not advance) starting from `SLEEP = 0`: the final `SLEEP` value and
the list of microsecond amounts slept, in order. -/
def idlePacing (frees : Nat) : Nat → Nat × List Nat
  | 0 => (0, [])
  | k + 1 =>
    let r := idlePacing frees k
    match pace_breathing frees frees r.1 with
    | (s, _, slept) => (s, r.2 ++ slept.toList)

/-! ## Link reporting (claim C9) -/

/-- engine.rs `loss_rate(drop, sent)`: `0` when `sent == 0`, otherwise
`drop * 100 / (drop + sent)` in `u64` integer division. -/
def loss_rate (drop sent : Nat) : Nat :=
  if sent = 0 then 0 else drop * 100 / (drop + sent)

/-- The loss-rate formula exactly as the specification writes it,
`txdrop / (txdrop + txpackets) * 100`, read in the same integer
arithmetic the code uses. -/
def specLossRate (drop sent : Nat) : Nat :=
  drop / (drop + sent) * 100

/-- Insert a string into a `≤`-sorted list of strings, keeping it
sorted (the building block modelling `Vec::sort`'s ascending order). -/
def insertSorted (x : String) : List String → List String
  | [] => [x]
  | y :: t => if x ≤ y then x :: y :: t else y :: insertSorted x t

/-- Sort a list of strings ascending, modelling `names.sort()` in
engine.rs `report_links` (only the sortedness and the multiset of names
matter to the report). -/
def sortNames : List String → List String
  | [] => []
  | x :: t => insertSorted x (sortNames t)

/-- The keys of an association list (the model of a `HashMap`'s key
set). -/
def akeys {α : Type} (m : List (String × α)) : List String := m.map (·.1)

/-- Lookup in an association list (first match), the model of
`HashMap::get`. -/
def alookup {α : Type} : List (String × α) → String → Option α
  | [], _ => none
  | (k, v) :: t, key => if k = key then some v else alookup t key

/-- engine.rs `report_links(state)`: sort the link names, and for each
print `txpackets`, the name, and `loss_rate(txdrop, txpackets)`.  The
printed lines are modelled as the returned list of triples. -/
def report_links (link_table : List (String × Link)) : List (Nat × String × Nat) :=
  (sortNames (akeys link_table)).filterMap fun n =>
    (alookup link_table n).map fun l => (l.txpackets, n, loss_rate l.txdrop l.txpackets)

/-! ## Configuration and graph migration (claim C5)

engine.rs `configure` diffs the live graph against a `config::Config`.
The `HashMap`s (`link_table`, `app_table`, the app port maps) are
modelled as association lists with unique keys; iteration happens over
a snapshot of the keys, as in the source (`link_table.clone().keys()`,
`app_table.keys().collect()`).  The `Box<dyn App>` object identity of an
app instance is modelled by a serial number drawn from `nextInst` when
`start_app` runs.  Rc-shared links are identified by their `link_table`
key (the literal spec string), which is exactly how the source names
them. -/

/-- Insert into an association list: replace the first binding of the
key in place, or append a new binding (the model of
`HashMap::insert`). -/
def ainsert {α : Type} : List (String × α) → String → α → List (String × α)
  | [], key, v => [(key, v)]
  | (k, w) :: t, key, v =>
    if k = key then (k, v) :: t else (k, w) :: ainsert t key v

/-- Remove the first binding of a key from an association list (the
model of `HashMap::remove`). -/
def aremove {α : Type} : List (String × α) → String → List (String × α)
  | [], _ => []
  | (k, w) :: t, key => if k = key then t else (k, w) :: aremove t key

/-- Modelled from the spec: `config.rs` is not part of the sources.  An
`AppConfig` value is represented by its `AppArg::identity()` string
(`"{module}::{:?}"` of the Debug representation); `AppArg::equal`
compares these strings. -/
structure AppConf where
  id : String
deriving DecidableEq

/-- Modelled from the spec: `config.rs` is not part of the sources.  A
`Config` is a pair of maps, `apps : name -> AppConfig` and `links : set
of "from.port -> to.port"` strings. -/
structure Config where
  apps : List (String × AppConf)
  links : List String

/-- The result of `config::parse_link`: producing app and port, and
consuming app and port. -/
structure LinkSpec where
  from_ : String
  output : String
  to_ : String
  input : String

/-- A character of an identifier tail, per the spec grammar
`[A-Za-z_][A-Za-z0-9_]*`. -/
def isIdentChar (c : Char) : Bool := c.isAlpha || c.isDigit || c == '_'

/-- An identifier per the spec grammar, as a character list. -/
def isIdentChars : List Char → Bool
  | [] => false
  | c :: cs => (c.isAlpha || c == '_') && cs.all isIdentChar

/-- Strip leading and trailing whitespace from a character list. -/
def trimChars (l : List Char) : List Char :=
  ((l.dropWhile Char.isWhitespace).reverse.dropWhile Char.isWhitespace).reverse

/-- Split a character list at the first `"->"` arrow. -/
def splitArrow : List Char → Option (List Char × List Char)
  | [] => none
  | '-' :: '>' :: rest => some ([], rest)
  | c :: rest =>
    match splitArrow rest with
    | none => none
    | some (l, r) => some (c :: l, r)

/-- Split a character list at the first dot. -/
def splitDot : List Char → Option (List Char × List Char)
  | [] => none
  | '.' :: rest => some ([], rest)
  | c :: rest =>
    match splitDot rest with
    | none => none
    | some (l, r) => some (c :: l, r)

/-- Parse one side of a link spec, `<app>.<port>` with whitespace
permitted around the tokens. -/
def parseEndpoint (side : List Char) : Option (String × String) :=
  match splitDot side with
  | none => none
  | some (a, p) =>
    let a := trimChars a
    let p := trimChars p
    if isIdentChars a && isIdentChars p then some (String.mk a, String.mk p)
    else none

/-- Modelled from the spec: `config.rs` (holding `parse_link`) is not
part of the sources.  Parse `"<app>.<port> -> <app>.<port>"` per the
spec grammar `[A-Za-z_][A-Za-z0-9_]*` identifiers with whitespace
permitted around tokens; `none` models the parse failure panic on a
malformed spec. -/
def parse_link (spec : String) : Option LinkSpec :=
  match splitArrow spec.toList with
  | none => none
  | some (l, r) =>
    match parseEndpoint l, parseEndpoint r with
    | some (a, o), some (b, i) =>
      some { from_ := a, output := o, to_ := b, input := i }
    | _, _ => none

/-- engine.rs `AppState`: one live app instance.  `inst` models the
object identity of the `Box<dyn App>`; `conf` is the `AppArg` reference
it was built from; `input`/`output` map port names to the `link_table`
key of the shared link wired there. -/
structure AppState where
  inst : Nat
  conf : AppConf
  input : List (String × String)
  output : List (String × String)

/-- engine.rs `EngineState`: the live link and app tables, plus the
serial-number source modelling app object identity. -/
structure EngineState where
  link_table : List (String × Link)
  app_table : List (String × AppState)
  nextInst : Nat

/-- The engine-visible identity of the app instance bound to a name:
the `Box<dyn App>` object identity (`inst`) and the `AppArg` identity
string.  Two states agree on `appView` exactly when every surviving app
keeps its object identity and configuration. -/
def appView (m : List (String × AppState)) (n : String) : Option (Nat × String) :=
  (alookup m n).map fun r => (r.inst, r.conf.id)

/-- What happened during one `configure`: the names of stopped apps,
of freshly instantiated apps, and of links created fresh (with zeroed
counters) by `new_shared_link`. -/
structure MigrationLog where
  stopped : List String
  started : List String
  fresh : List String

/-- engine.rs `start_app`: insert a new app instance built from `conf`
with empty port maps. -/
def start_app (st : EngineState) (name : String) (conf : AppConf) : EngineState :=
  { st with
    app_table := ainsert st.app_table name
      { inst := st.nextInst, conf := conf, input := [], output := [] },
    nextInst := st.nextInst + 1 }

/-- engine.rs `stop_app`: remove the instance (its `stop()` callback
has no effect on the engine state). -/
def stop_app (st : EngineState) (name : String) : EngineState :=
  { st with app_table := aremove st.app_table name }

/-- engine.rs `link_apps`: `link_table.entry(spec).or_insert_with(new_shared_link)`,
then parse the spec and wire the link into the producer's `output` map
and the consumer's `input` map (`.unwrap()` on a missing app panics,
modelled as `none`).  The returned flag reports whether a fresh link
was created. -/
def link_apps (st : EngineState) (spec : String) : Option (EngineState × Bool) :=
  let present := (alookup st.link_table spec).isSome
  let st :=
    if present then st
    else { st with link_table := ainsert st.link_table spec link.new }
  match parse_link spec with
  | none => none
  | some sp =>
    match alookup st.app_table sp.from_ with
    | none => none
    | some fromApp =>
      let fromApp2 := { fromApp with output := ainsert fromApp.output sp.output spec }
      let st := { st with app_table := ainsert st.app_table sp.from_ fromApp2 }
      match alookup st.app_table sp.to_ with
      | none => none
      | some toApp =>
        let toApp2 := { toApp with input := ainsert toApp.input sp.input spec }
        some ({ st with app_table := ainsert st.app_table sp.to_ toApp2 }, !present)

/-- engine.rs `unlink_apps`: drop the link from `link_table`, parse the
spec, and remove the ports from the two endpoint apps (`.unwrap()` on a
missing app panics, modelled as `none`). -/
def unlink_apps (st : EngineState) (spec : String) : Option EngineState :=
  let st := { st with link_table := aremove st.link_table spec }
  match parse_link spec with
  | none => none
  | some sp =>
    match alookup st.app_table sp.from_ with
    | none => none
    | some fromApp =>
      let fromApp2 := { fromApp with output := aremove fromApp.output sp.output }
      let st := { st with app_table := ainsert st.app_table sp.from_ fromApp2 }
      match alookup st.app_table sp.to_ with
      | none => none
      | some toApp =>
        let toApp2 := { toApp with input := aremove toApp.input sp.input }
        some { st with app_table := ainsert st.app_table sp.to_ toApp2 }

/-- Phase 1 of `configure`: for every link name in the snapshot of the
live table that the new config does not mention, `unlink_apps`. -/
def removeDeadLinks : List String → EngineState → Config → Option EngineState
  | [], st, _ => some st
  | k :: rest, st, c =>
    if c.links.contains k then removeDeadLinks rest st c
    else
      match unlink_apps st k with
      | none => none
      | some st => removeDeadLinks rest st c

/-- Phase 2 of `configure`: for every app name in the snapshot, stop it
when the new config lacks the name or its `AppArg` identity differs.
Returns the surviving state and the stopped names. -/
def sweepApps : List String → EngineState → Config → EngineState × List String
  | [], st, _ => (st, [])
  | name :: rest, st, c =>
    match alookup st.app_table name with
    | none => sweepApps rest st c
    | some old =>
      match alookup c.apps name with
      | some newConf =>
        if old.conf.id = newConf.id then sweepApps rest st c
        else
          let r := sweepApps rest (stop_app st name) c
          (r.1, name :: r.2)
      | none =>
        let r := sweepApps rest (stop_app st name) c
        (r.1, name :: r.2)

/-- Phase 3 of `configure`: instantiate every configured app that is
not yet in the table.  Returns the state and the started names. -/
def startApps : List (String × AppConf) → EngineState → EngineState × List String
  | [], st => (st, [])
  | (name, conf) :: rest, st =>
    match alookup st.app_table name with
    | some _ => startApps rest st
    | none =>
      let r := startApps rest (start_app st name conf)
      (r.1, name :: r.2)

/-- Phase 4 of `configure`: `link_apps` for every configured link spec.
Returns the state and the specs for which a fresh link was created. -/
def applyLinks : List String → EngineState → Option (EngineState × List String)
  | [], st => some (st, [])
  | spec :: rest, st =>
    match link_apps st spec with
    | none => none
    | some (st, fresh) =>
      match applyLinks rest st with
      | none => none
      | some (st2, freshRest) =>
        some (st2, if fresh then spec :: freshRest else freshRest)

/-- engine.rs `configure(state, config)`: remove dead links, stop
outdated apps, start new apps, rebuild links, logging what changed. -/
def configure (st : EngineState) (c : Config) : Option (EngineState × MigrationLog) :=
  match removeDeadLinks (akeys st.link_table) st c with
  | none => none
  | some st =>
    let r2 := sweepApps (akeys st.app_table) st c
    let r3 := startApps c.apps r2.1
    match applyLinks c.links r3.1 with
    | none => none
    | some (st, fresh) =>
      some (st, { stopped := r2.2, started := r3.2, fresh := fresh })

/-! ## ixgbe rx_batch (claim C8)

`IxgbeDevice::rx_batch` in ixy82599/ixgbe.rs walks the RX descriptor
ring from the queue's `rx_index`.  A descriptor's write-back
`status_error` word is modelled by its two tested bits (the `constants`
module carrying the numeric masks `IXGBE_RXDADV_STAT_DD` and
`IXGBE_RXDADV_STAT_EOP` is not part of the sources; modelled from the
spec: distinct single bits of the status word) together with the
write-back `length`.  Register writes (`RDT`) and the DMA address
installation are hardware I/O without engine-visible state and are
dropped; the buffer rotation, freelist traffic and link transmits are
kept. -/

/-- One RX descriptor as the driver reads it back: the `DD`
(descriptor done) and `EOP` (end of packet) bits of
`wb.upper.status_error`, and `wb.upper.length`. -/
structure RxDesc where
  dd : Bool
  eop : Bool
  length : Nat

/-- ixgbe.rs `IxgbeRxQueue`: descriptor ring, ring size, the parallel
array of packet buffers owned by the hardware, and the ring cursor. -/
structure RxQueue where
  descriptors : Nat → RxDesc
  num_descriptors : Nat
  bufs_in_use : Nat → Packet
  rx_index : Nat

/-- ixgbe.rs `wrap_ring(index, ring_size)`: `(index + 1) & (ring_size - 1)`;
ring sizes are powers of two, so the mask is `mod ring_size`. -/
def wrap_ring (index ring_size : Nat) : Nat := (index + 1) % ring_size

/-- The descriptor loop of `rx_batch`: with `n` iterations left, stop
at a descriptor with `DD` clear; `panic!("increase buffer size or
decrease MTU")` (= `none`) on `DD` set with `EOP` clear; otherwise take
the buffer, stamp its length from the descriptor, replace the buffer
slot with a freshly allocated packet, transmit the packet onto the
output link, advance the ring cursor and count the packet. -/
def rx_batch_go : Nat → RxQueue → Link → Sys → Nat → Option (Nat × RxQueue × Link × Sys)
  | 0, q, l, s, count => some (count, q, l, s)
  | n + 1, q, l, s, count =>
    let d := q.descriptors q.rx_index
    if !d.dd then some (count, q, l, s)
    else if !d.eop then none
    else
      let p := { q.bufs_in_use q.rx_index with length := d.length }
      match packet.allocate s with
      | none => none
      | some (np, s) =>
        let q := { q with
          bufs_in_use := fun i => if i = q.rx_index then np else q.bufs_in_use i }
        match link.transmit l p s with
        | none => none
        | some (l, s) =>
          rx_batch_go n
            { q with rx_index := wrap_ring q.rx_index q.num_descriptors }
            l s (count + 1)

/-- ixgbe.rs `rx_batch(queue, output, num_packets)`: run the descriptor
loop for at most `num_packets` packets, returning the number received
together with the updated queue, link and freelist state (`none` models
the two panics: `EOP` clear on a done descriptor, and freelist
exhaustion in `packet::allocate`). -/
def rx_batch (q : RxQueue) (output : Link) (s : Sys) (num_packets : Nat) :
    Option (Nat × RxQueue × Link × Sys) :=
  rx_batch_go num_packets q output s 0

/-- The length of the `DD`-set descriptor run starting at ring position
`idx` (descriptor array `d`, ring size `nd`), looking at most `n`
descriptors ahead: the batch size `rx_batch` will process barring a
panic. -/
def ddLen (d : Nat → RxDesc) (nd : Nat) : Nat → Nat → Nat
  | _, 0 => 0
  | idx, n + 1 =>
    if (d idx).dd then ddLen d nd (wrap_ring idx nd) n + 1
    else 0

/-- Whether every descriptor of the `DD`-set run starting at `idx`
(looking at most `n` ahead) also has `EOP` set, i.e. whether `rx_batch`
completes without the fatal split-packet panic. -/
def ddEopOk (d : Nat → RxDesc) (nd : Nat) : Nat → Nat → Bool
  | _, 0 => true
  | idx, n + 1 =>
    if (d idx).dd then (d idx).eop && ddEopOk d nd (wrap_ring idx nd) n
    else true

/-! ## The engine main loop (claim C10)

engine.rs `main` first resolves `options.done`/`options.duration`
(panicking when both are given), takes one unconditional breath, and
then loops `pace_breathing(); breathe()` while the predicate is false.
The apps' work inside a breath is abstracted as a function on an inner
state component (apps have no way to touch `STATS.breaths`, which
`breathe` alone increments); `duration` becomes a deadline predicate via
`timeout`; the unbounded `while` is given explicit fuel, `none` meaning
the loop has not terminated within the fuel (or the double-option
panic). -/

/-- The engine-visible state for the main-loop model: the global breath
counter plus the app/link state the breath acts on. -/
structure EngineRun (σ : Type) where
  breaths : Nat
  inner : σ

/-- engine.rs `breathe`: perform the apps' pull/push work, then
increment `STATS.breaths`. -/
def breatheStep {σ : Type} (work : σ → σ) (st : EngineRun σ) : EngineRun σ :=
  { breaths := st.breaths + 1, inner := work st.inner }

/-- The `while !done { pace_breathing(); breathe() }` loop of
engine.rs `main` (pacing only sleeps; it does not change the engine
state observed here). -/
def mainLoop {σ : Type} (work : σ → σ) (done : EngineRun σ → Bool) :
    Nat → EngineRun σ → Option (EngineRun σ)
  | 0, st => if done st then some st else none
  | fuel + 1, st =>
    if done st then some st else mainLoop work done fuel (breatheStep work st)

/-- engine.rs `main`: panic when both `done` and `duration` are given;
otherwise run one unconditional `breathe`, then the predicate-checked
loop.  When neither option is given the predicate is constantly false
and the loop never exits by itself. -/
def engine_main {σ : Type} (work : σ → σ)
    (doneOpt deadlineOpt : Option (EngineRun σ → Bool))
    (fuel : Nat) (st : EngineRun σ) : Option (EngineRun σ) :=
  match doneOpt, deadlineOpt with
  | some _, some _ => none
  | some done, none => mainLoop work done fuel (breatheStep work st)
  | none, some deadline => mainLoop work deadline fuel (breatheStep work st)
  | none, none => mainLoop work (fun _ => false) fuel (breatheStep work st)

/-! ## Concrete sample values

Small closed values used to instantiate the theorems below at concrete
inputs. -/

/-- A system state with an empty freelist and zeroed statistics. -/
def sampleSys : Sys :=
  { stats := { breaths := 0, frees := 0, freebits := 0, freebytes := 0 },
    fl := [], nfree := 0 }

/-- The system state `sampleSys` after `packet::free(new_packet)`:
one free accounted (`freebits = (max(0,46)+9)*8 = 440`), the packet
back on the freelist. -/
def sampleFreedSys : Sys :=
  { stats := { breaths := 0, frees := 1, freebits := 440, freebytes := 0 },
    fl := [new_packet], nfree := 1 }

/-- A full link: `write = 1023`, `read = 0`, so
`(write + 1) mod 1024 = read`. -/
def sampleFullLink : Link :=
  { packets := fun _ => new_packet,
    read := 0, write := 1023,
    txpackets := 0, txbytes := 0, txdrop := 0,
    rxpackets := 0, rxbytes := 0 }

/-- The key of the sample link carrying one transmitted and one
dropped packet in `sampleTable`. -/
def sampleKey : String := "a.x -> b.y"

/-- A concrete one-link table: the link under `sampleKey` has
`txpackets = txdrop = 1`. -/
def sampleTable : List (String × Link) :=
  [(sampleKey, { link.new with txpackets := 1, txdrop := 1 })]

/-- An RX queue of ring size 512 whose descriptor 0 reports a done
60-byte end-of-packet frame and whose other descriptors are not yet
done. -/
def sampleRxQueue : RxQueue :=
  { descriptors := fun i =>
      if i = 0 then { dd := true, eop := true, length := 60 }
      else { dd := false, eop := false, length := 0 },
    num_descriptors := 512,
    bufs_in_use := fun _ => new_packet,
    rx_index := 0 }

/-- A system state whose freelist holds two packets. -/
def sampleRxSys : Sys :=
  { stats := { breaths := 0, frees := 0, freebits := 0, freebytes := 0 },
    fl := [new_packet, new_packet], nfree := 2 }

/-- A link holding one enqueued packet at slot 0. -/
def sampleLoadedLink : Link :=
  { packets := fun _ => new_packet,
    read := 0, write := 1,
    txpackets := 1, txbytes := 0, txdrop := 0,
    rxpackets := 0, rxbytes := 0 }

/-- A fresh engine state, as returned by `engine::init()`. -/
def emptyEngine : EngineState :=
  { link_table := [], app_table := [], nextInst := 0 }

/-- The configuration of main.rs `engine()`: a 60-byte `Source` feeding
a `Sink` over one link. -/
def sampleConfig : Config :=
  { apps := [("source", { id := "rush::basic_apps::Source { size: 60 }" }),
             ("sink", { id := "rush::basic_apps::Sink" })],
    links := ["source.output -> sink.input"] }

/-- The engine state produced by applying `sampleConfig` to a fresh
engine: both apps instantiated (object identities 0 and 1) and the
single link wired into their port maps. -/
def sampleEngine1 : EngineState :=
  { link_table := [("source.output -> sink.input", link.new)],
    app_table :=
      [("source", { inst := 0,
                    conf := { id := "rush::basic_apps::Source { size: 60 }" },
                    input := [],
                    output := [("output", "source.output -> sink.input")] }),
       ("sink", { inst := 1,
                  conf := { id := "rush::basic_apps::Sink" },
                  input := [("input", "source.output -> sink.input")],
                  output := [] })],
    nextInst := 2 }

/-- The migration log of that first `configure`: two apps started, one
fresh link, nothing stopped. -/
def sampleLog1 : MigrationLog :=
  { stopped := [], started := ["source", "sink"],
    fresh := ["source.output -> sink.input"] }

/-! # Theorems -/

/-! ## Shared lemmas -/

/-- A successful `packet::free` advances the global `frees` counter by
exactly one (and the other statistics by the documented amounts). -/
theorem packet_free_stats (p : Packet) (s s2 : Sys)
    (h : packet.free p s = some s2) :
    s2.stats.frees = s.stats.frees + 1 ∧
    s2.stats.freebytes = s.stats.freebytes + p.length ∧
    s2.stats.freebits = s.stats.freebits + (max p.length 46 + 4 + 5) * 8 := by
  unfold packet.free packet.free_internal at h
  split at h
  · exact absurd h (by simp)
  · simp only [Option.some.injEq] at h
    subst h
    exact ⟨rfl, rfl, rfl⟩

/-- Ring occupancy is always at most `LINK_MAX_PACKETS`, being a
residue modulo `LINK_RING_SIZE`. -/
theorem occupancy_le_max (l : Link) : link.occupancy l ≤ LINK_MAX_PACKETS := by
  have h : link.occupancy l < LINK_RING_SIZE :=
    Nat.mod_lt _ (by simp [LINK_RING_SIZE])
  simpa [LINK_MAX_PACKETS, LINK_RING_SIZE] using Nat.le_of_lt_succ h

/-! ## C1 -/

set_option maxRecDepth 100000 in
/-- C1: for a fresh engine with `source: Source{size=60}` and
`sink: Sink` connected by `"source.output -> sink.input"`, one breath
yields link `txpackets = rxpackets = 102 = PULL_NPACKETS = 1023/10`,
`txbytes = rxbytes = 6120`, `txdrop = 0`, and engine statistics
`frees = 102`, `freebytes = 6120`, `freebits = 56304`. -/
theorem c1_source_sink_one_breath :
    sourceSinkObservation = some (102, 102, 6120, 6120, 0, 102, 6120, 56304) ∧
    PULL_NPACKETS = 102 ∧ PULL_NPACKETS = 1023 / 10 ∧
    56304 = (max 60 46 + 9) * 8 * 102 :=
  ⟨rfl, rfl, rfl, rfl⟩

/-! ## C2 -/

/-- C2: `transmit(L, p)` on a full link increments `txdrop` by one and
frees the packet — advancing the engine's `frees` counter — leaving
`txpackets`, `txbytes`, the ring slots and both cursors unchanged (the
record update pins every other field); on a non-full link it stores the
packet at the `write` cursor, advances `write` modulo the ring size,
and increments `txpackets` by one and `txbytes` by `p.length`.  In both
cases the packet value is consumed by the call, and no error is
signalled (the only abort is the freelist-overflow panic inside
`packet::free`, which indicates a double-free elsewhere). -/
theorem c2_transmit_semantics (r : Link) (p : Packet) (s : Sys) :
    (link.full r = true →
      ∀ s2, packet.free p s = some s2 →
        link.transmit r p s = some ({ r with txdrop := r.txdrop + 1 }, s2) ∧
        s2.stats.frees = s.stats.frees + 1) ∧
    (link.full r = false →
      link.transmit r p s = some ({ r with
        txpackets := r.txpackets + 1,
        txbytes := r.txbytes + p.length,
        packets := fun i => if i = r.write then p else r.packets i,
        write := (r.write + 1) % LINK_RING_SIZE }, s)) := by
  constructor
  · intro hf s2 hfree
    refine ⟨?_, (packet_free_stats p s s2 hfree).1⟩
    simp [link.transmit, hf, hfree]
  · intro hf
    simp [link.transmit, hf]

/-- Witness for C2: both branches of `c2_transmit_semantics`
instantiated at concrete inputs, the full-link branch at
`sampleFullLink` with the empty-freelist system `sampleSys`, the
non-full branch at the fresh link. -/
theorem c2_transmit_semantics_witness :
    (link.full sampleFullLink = true ∧
     packet.free new_packet sampleSys = some sampleFreedSys ∧
     (link.transmit sampleFullLink new_packet sampleSys =
        some ({ sampleFullLink with txdrop := sampleFullLink.txdrop + 1 },
              sampleFreedSys) ∧
      sampleFreedSys.stats.frees = sampleSys.stats.frees + 1)) ∧
    (link.full link.new = false ∧
     link.transmit link.new new_packet sampleSys = some ({ link.new with
        txpackets := link.new.txpackets + 1,
        txbytes := link.new.txbytes + new_packet.length,
        packets := fun i => if i = link.new.write then new_packet else link.new.packets i,
        write := (link.new.write + 1) % LINK_RING_SIZE }, sampleSys)) :=
  ⟨⟨rfl, rfl,
    (c2_transmit_semantics sampleFullLink new_packet sampleSys).1 rfl sampleFreedSys rfl⟩,
   ⟨rfl, (c2_transmit_semantics link.new new_packet sampleSys).2 rfl⟩⟩

/-! ## C3 -/

/-- C3: `receive(L)` panics exactly when the link is empty
(`read == write`); on a non-empty link it returns the packet stored at
the `read` cursor and the link with `read` advanced modulo the ring
size, `rxpackets` incremented by one and `rxbytes` by the returned
packet's length (ownership of the packet passes to the caller: the
returned link no longer determines it). -/
theorem c3_receive_semantics (r : Link) :
    (link.receive r = none ↔ r.read = r.write) ∧
    (∀ p r2, link.receive r = some (p, r2) →
      p = r.packets r.read ∧
      r2 = { r with
        read := (r.read + 1) % LINK_RING_SIZE,
        rxpackets := r.rxpackets + 1,
        rxbytes := r.rxbytes + p.length }) := by
  constructor
  · constructor
    · intro h
      by_contra hne
      have he : link.empty r = false := by
        simp [link.empty, hne]
      simp [link.receive, he] at h
    · intro h
      have he : link.empty r = true := by simp [link.empty, h]
      simp [link.receive, he]
  · intro p r2 h
    by_cases he : link.empty r = true
    · simp [link.receive, he] at h
    · have he' : link.empty r = false := by
        cases hcase : link.empty r
        · rfl
        · exact absurd hcase he
      simp [link.receive, he'] at h
      obtain ⟨hp, hr⟩ := h
      subst hp
      exact ⟨rfl, hr.symm⟩

/-- Witness for C3: `c3_receive_semantics` at the one-packet link
`sampleLoadedLink`, discharging the `some`-hypothesis by computation. -/
theorem c3_receive_semantics_witness :
    (link.receive sampleLoadedLink =
      some (sampleLoadedLink.packets 0, { sampleLoadedLink with
        read := 1, rxpackets := 1, rxbytes := 0 })) ∧
    (sampleLoadedLink.packets 0 = sampleLoadedLink.packets sampleLoadedLink.read ∧
     ({ sampleLoadedLink with read := 1, rxpackets := 1, rxbytes := 0 } : Link) =
       { sampleLoadedLink with
         read := (sampleLoadedLink.read + 1) % LINK_RING_SIZE,
         rxpackets := sampleLoadedLink.rxpackets + 1,
         rxbytes := sampleLoadedLink.rxbytes + (sampleLoadedLink.packets 0).length }) :=
  ⟨rfl, (c3_receive_semantics sampleLoadedLink).2
    (sampleLoadedLink.packets 0)
    { sampleLoadedLink with read := 1, rxpackets := 1, rxbytes := 0 } rfl⟩

/-! ## C4 -/

/-- C4: for every link and every sequence of transmit/receive
operations, the occupancy `(write - read) mod LINK_RING_SIZE` stays
between `0` and `LINK_MAX_PACKETS = 1023`: `new()` establishes
occupancy `0`, every (non-panicking) `transmit` and `receive` preserves
the range, and hence any operation sequence run from a fresh link stays
in the range (the lower bound is inherent in `Nat`). -/
theorem c4_occupancy_invariant :
    link.occupancy link.new = 0 ∧
    LINK_MAX_PACKETS = 1023 ∧
    (∀ l p s l2 s2, link.transmit l p s = some (l2, s2) →
      link.occupancy l2 ≤ LINK_MAX_PACKETS) ∧
    (∀ l p l2, link.receive l = some (p, l2) →
      link.occupancy l2 ≤ LINK_MAX_PACKETS) ∧
    (∀ ops l2 s2, runLinkOps ops link.new initSys = some (l2, s2) →
      link.occupancy l2 ≤ LINK_MAX_PACKETS) :=
  ⟨rfl, rfl,
   fun _ _ _ l2 _ _ => occupancy_le_max l2,
   fun _ _ l2 _ => occupancy_le_max l2,
   fun _ l2 _ _ => occupancy_le_max l2⟩

set_option maxRecDepth 10000 in
/-- Witness for C4: a concrete transmit-then-receive run from a fresh
link, each hypothesis discharged by computation. -/
theorem c4_occupancy_invariant_witness :
    (∃ l2 s2, runLinkOps [LinkOp.tx new_packet, LinkOp.rx] link.new initSys =
        some (l2, s2)) ∧
    (∀ l2 s2, runLinkOps [LinkOp.tx new_packet, LinkOp.rx] link.new initSys =
        some (l2, s2) → link.occupancy l2 ≤ LINK_MAX_PACKETS) :=
  ⟨⟨_, _, rfl⟩, fun l2 s2 h =>
    c4_occupancy_invariant.2.2.2.2 [LinkOp.tx new_packet, LinkOp.rx] l2 s2 h⟩

/-! ## C6 -/

/-- C6: the claim asks that two runs of the engine on the same config
produce identical inhale and exhale sequences.  engine.rs `breathe`
derives both sequences from `app_table.values()`, a `std::collections::HashMap`
iteration whose order depends on the per-process random hasher seed, so
the sequences are a function of that order parameter and the claim
fails: the two orders below are iteration orders of the same two-app
table (they are permutations of each other) yet give different traces.
The intra-breath half of the claim does hold: the trace is all `pull`
invocations followed by all `push` invocations. -/
theorem c6_breathe_order_not_run_invariant :
    List.Perm ["source", "sink"] ["sink", "source"] ∧
    breatheTrace ["source", "sink"] ≠ breatheTrace ["sink", "source"] ∧
    (∀ order : List String,
      (breatheTrace order).map Prod.snd =
        List.replicate order.length true ++ List.replicate order.length false) := by
  refine ⟨by decide, by decide, ?_⟩
  intro order
  simp [breatheTrace, List.map_map, Function.comp_def, List.map_const']

/-! ## C7 -/

/-- The sleep accumulator after `k` idle pacing steps from `SLEEP = 0`
is `min k MAXSLEEP`. -/
theorem idlePacing_sleep (frees : Nat) :
    ∀ k, (idlePacing frees k).1 = min k MAXSLEEP := by
  intro k
  induction k with
  | zero => simp [idlePacing]
  | succ n ih =>
    simp [idlePacing, pace_breathing, ih, MAXSLEEP]
    omega

/-- C7: starting from `SLEEP = 0`, after `k` consecutive breaths in
which `STATS.frees` did not advance, `SLEEP = min(k, MAXSLEEP)` and the
`i`-th such pacing step slept `min(i, MAXSLEEP)` microseconds; after a
breath in which `frees` did advance, `SLEEP` is halved by integer
division and no sleep is issued. -/
theorem c7_pacing_monotone (frees k : Nat) :
    (idlePacing frees k).1 = min k MAXSLEEP ∧
    (idlePacing frees k).2 = (List.range k).map (fun i => min (i + 1) MAXSLEEP) ∧
    (∀ f lf sl : Nat, lf ≠ f → pace_breathing f lf sl = (sl / 2, f, none)) := by
  refine ⟨idlePacing_sleep frees k, ?_, ?_⟩
  · induction k with
    | zero => simp [idlePacing]
    | succ n ih =>
      simp [idlePacing, pace_breathing, ih, List.range_succ,
        idlePacing_sleep frees n, MAXSLEEP]
      omega
  · intro f lf sl hne
    simp [pace_breathing, hne]

/-- Witness for C7: the halving branch of `c7_pacing_monotone`
instantiated at `frees = 2`, `LASTFREES = 1`, `SLEEP = 7`. -/
theorem c7_pacing_monotone_witness :
    (1 : Nat) ≠ 2 ∧ pace_breathing 2 1 7 = (3, 2, none) :=
  ⟨by decide, (c7_pacing_monotone 0 0).2.2 2 1 7 (by decide)⟩

/-! ## C9 (counterexample) -/

/-- C9 counterexample: at `txdrop = 1`, `txpackets = 1` the code's
`loss_rate` reports `1 * 100 / (1 + 1) = 50`, while the formula the
claim states, `txdrop / (txdrop + txpackets) * 100`, evaluates (in the
same integer arithmetic the code uses) to `0`; at `txdrop = 1`,
`txpackets = 0` the code reports `0` while the claim's formula gives
`100`. -/
theorem c9_loss_rate_counterexample :
    loss_rate 1 1 = 50 ∧ specLossRate 1 1 = 0 ∧
    loss_rate 1 1 ≠ specLossRate 1 1 ∧
    loss_rate 1 0 = 0 ∧ specLossRate 1 0 = 100 := by decide

/-! ## C9 (amended): sortedness and per-link rate of the report -/

/-- `insertSorted` inserts: the result is a permutation of consing. -/
theorem insertSorted_perm (x : String) :
    ∀ l : List String, (insertSorted x l).Perm (x :: l) := by
  intro l
  induction l with
  | nil => simp [insertSorted]
  | cons y t ih =>
    simp only [insertSorted]
    split
    · exact List.Perm.refl _
    · exact List.Perm.trans (List.Perm.cons y ih) (List.Perm.swap x y t)

/-- `insertSorted` preserves sortedness. -/
theorem insertSorted_sorted (x : String) :
    ∀ l : List String, l.Pairwise (· ≤ ·) →
      (insertSorted x l).Pairwise (· ≤ ·) := by
  intro l
  induction l with
  | nil => intro _; simp [insertSorted]
  | cons y t ih =>
    intro hp
    rw [List.pairwise_cons] at hp
    simp only [insertSorted]
    split
    · rename_i hxy
      rw [List.pairwise_cons]
      constructor
      · intro b hb
        rcases List.mem_cons.mp hb with hb | hb
        · subst hb; exact hxy
        · exact le_trans hxy (hp.1 b hb)
      · exact List.pairwise_cons.mpr hp
    · rename_i hxy
      rw [List.pairwise_cons]
      constructor
      · intro b hb
        rcases List.mem_cons.mp ((insertSorted_perm x t).mem_iff.mp hb) with hb | hb
        · subst hb; exact le_of_not_le hxy
        · exact hp.1 b hb
      · exact ih hp.2

/-- `sortNames` permutes its argument. -/
theorem sortNames_perm : ∀ l : List String, (sortNames l).Perm l := by
  intro l
  induction l with
  | nil => simp [sortNames]
  | cons x t ih =>
    exact List.Perm.trans (insertSorted_perm x (sortNames t)) (List.Perm.cons x ih)

/-- `sortNames` sorts ascending. -/
theorem sortNames_sorted : ∀ l : List String, (sortNames l).Pairwise (· ≤ ·) := by
  intro l
  induction l with
  | nil => simp [sortNames]
  | cons x t ih => exact insertSorted_sorted x (sortNames t) ih

/-- Every key of an association list has a successful lookup. -/
theorem alookup_isSome_of_mem_akeys {α : Type} :
    ∀ (m : List (String × α)) (n : String), n ∈ akeys m →
      ∃ v, alookup m n = some v := by
  intro m
  induction m with
  | nil => intro n h; simp [akeys] at h
  | cons kv t ih =>
    intro n h
    simp only [akeys, List.map_cons, List.mem_cons] at h
    by_cases hk : kv.1 = n
    · exact ⟨kv.2, by simp [alookup, hk]⟩
    · rcases h with h | h
      · exact absurd h.symm hk
      · obtain ⟨v, hv⟩ := ih n h
        exact ⟨v, by simpa [alookup, hk] using hv⟩

/-- When every listed name resolves in the table, the report lines'
names are exactly the listed names, in order. -/
theorem report_names_eq (table : List (String × Link)) :
    ∀ ns : List String, (∀ n ∈ ns, ∃ l, alookup table n = some l) →
      ((ns.filterMap fun n => (alookup table n).map fun l =>
          (l.txpackets, n, loss_rate l.txdrop l.txpackets)).map
        (fun e => e.2.1)) = ns := by
  intro ns
  induction ns with
  | nil => intro _; simp
  | cons n t ih =>
    intro h
    obtain ⟨l, hl⟩ := h n (List.mem_cons_self n t)
    simp only [List.filterMap_cons, hl, Option.map_some', List.map_cons]
    rw [ih fun m hm => h m (List.mem_cons_of_mem n hm)]

/-- C9 (amended): `report_links` lists the links sorted by name — the
name column is `≤`-sorted and is a permutation of the link table's
keys — and reports for each link a loss rate of
`txdrop * 100 / (txdrop + txpackets)` in integer (floor) division,
with `0` reported when `txpackets = 0`, both counters taken from that
link. -/
theorem c9_report_links_sorted_and_rate (table : List (String × Link)) :
    ((report_links table).map (fun e => e.2.1)).Pairwise (· ≤ ·) ∧
    ((report_links table).map (fun e => e.2.1)).Perm (akeys table) ∧
    ∀ e ∈ report_links table, ∃ l, alookup table e.2.1 = some l ∧
      e.1 = l.txpackets ∧
      e.2.2 = if l.txpackets = 0 then 0
              else l.txdrop * 100 / (l.txdrop + l.txpackets) := by
  have hres : ∀ n ∈ sortNames (akeys table), ∃ l, alookup table n = some l := by
    intro n hn
    exact alookup_isSome_of_mem_akeys table n
      ((sortNames_perm (akeys table)).mem_iff.mp hn)
  have hnames : ((report_links table).map (fun e => e.2.1)) =
      sortNames (akeys table) := by
    simpa [report_links] using report_names_eq table (sortNames (akeys table)) hres
  refine ⟨?_, ?_, ?_⟩
  · rw [hnames]
    exact sortNames_sorted (akeys table)
  · rw [hnames]
    exact sortNames_perm (akeys table)
  · intro e he
    simp only [report_links, List.mem_filterMap] at he
    obtain ⟨n, _, hfn⟩ := he
    rcases hl : alookup table n with _ | l
    · rw [hl] at hfn; cases hfn
    · rw [hl] at hfn
      simp only [Option.map_some', Option.some.injEq] at hfn
      subst hfn
      exact ⟨l, hl, rfl, by simp [loss_rate]⟩

/-- Witness for C9: the amended theorem applied at the concrete
two-link table `sampleTable` (whose link `sampleKey` has
`txdrop = txpackets = 1`), discharging the membership hypothesis on the
first report line by computation. -/
theorem c9_report_links_witness :
    ((1 : Nat), sampleKey, (50 : Nat)) ∈ report_links sampleTable ∧
    ∃ l, alookup sampleTable sampleKey = some l ∧
      (1 : Nat) = l.txpackets ∧
      (50 : Nat) = if l.txpackets = 0 then 0
                   else l.txdrop * 100 / (l.txdrop + l.txpackets) :=
  have hmem : ((1 : Nat), sampleKey, (50 : Nat)) ∈ report_links sampleTable := by
    have h : report_links sampleTable = [(1, sampleKey, 50)] := rfl
    rw [h]
    exact List.mem_cons_self _ _
  ⟨hmem, (c9_report_links_sorted_and_rate sampleTable).2.2
    ((1 : Nat), sampleKey, (50 : Nat)) hmem⟩

/-! ## C10 -/

/-- The loop of engine.rs `main` never decreases the breath counter. -/
theorem mainLoop_breaths_mono {σ : Type} (work : σ → σ)
    (done : EngineRun σ → Bool) :
    ∀ (fuel : Nat) (st res : EngineRun σ),
      mainLoop work done fuel st = some res → st.breaths ≤ res.breaths := by
  intro fuel
  induction fuel with
  | zero =>
    intro st res h
    simp only [mainLoop] at h
    split at h
    · cases h; exact Nat.le_refl _
    · cases h
  | succ n ih =>
    intro st res h
    simp only [mainLoop] at h
    split at h
    · cases h; exact Nat.le_refl _
    · exact Nat.le_trans (Nat.le_succ _) (ih (breatheStep work st) res h)

/-- C10: whenever `engine::main` returns, at least one full breath has
run before the termination predicate was first consulted, so the breath
counter has advanced by at least one; with an always-true `done` (or an
immediately expired `duration` deadline) the result is exactly the
state after that single unconditional breath. -/
theorem c10_main_breathes_at_least_once {σ : Type} (work : σ → σ)
    (doneOpt deadlineOpt : Option (EngineRun σ → Bool)) (fuel : Nat)
    (st res : EngineRun σ)
    (h : engine_main work doneOpt deadlineOpt fuel st = some res) :
    st.breaths + 1 ≤ res.breaths ∧
    (∀ st2 : EngineRun σ,
      engine_main work (some (fun _ => true)) none fuel st2 =
        some (breatheStep work st2)) := by
  constructor
  · have hb : (breatheStep work st).breaths = st.breaths + 1 := rfl
    cases hdone : doneOpt with
    | some done =>
      cases hdl : deadlineOpt with
      | some dl => rw [hdone, hdl] at h; exact absurd h (by simp [engine_main])
      | none =>
        rw [hdone, hdl] at h
        simp only [engine_main] at h
        have := mainLoop_breaths_mono work done fuel (breatheStep work st) res h
        omega
    | none =>
      cases hdl : deadlineOpt with
      | some dl =>
        rw [hdone, hdl] at h
        simp only [engine_main] at h
        have := mainLoop_breaths_mono work dl fuel (breatheStep work st) res h
        omega
      | none =>
        rw [hdone, hdl] at h
        simp only [engine_main] at h
        have := mainLoop_breaths_mono work (fun _ => false) fuel
          (breatheStep work st) res h
        omega
  · intro st2
    cases fuel with
    | zero => simp [engine_main, mainLoop]
    | succ n => simp [engine_main, mainLoop]

/-- Witness for C10: a concrete `main` call whose `done` predicate is
true from the start still performs one breath. -/
theorem c10_main_breathes_witness :
    engine_main (fun n : Nat => n) (some (fun _ => true)) none 5
        { breaths := 0, inner := 0 } =
      some { breaths := 1, inner := 0 } ∧
    (0 : Nat) + 1 ≤ 1 :=
  ⟨rfl, (c10_main_breathes_at_least_once (fun n : Nat => n)
    (some (fun _ => true)) none 5 { breaths := 0, inner := 0 }
    { breaths := 1, inner := 0 } rfl).1⟩

/-! ## C8 -/

/-- `transmit` always succeeds while the freelist has headroom, and one
call accounts exactly one packet in `txpackets + txdrop`; the freelist
either is untouched (store branch) or grows by the dropped packet. -/
theorem packet_free_eq (p : Packet) (s : Sys) (h : s.nfree < FREELIST_SIZE) :
    packet.free p s = some
      { stats := { breaths := s.stats.breaths,
                   frees := s.stats.frees + 1,
                   freebits := s.stats.freebits + (max p.length 46 + 4 + 5) * 8,
                   freebytes := s.stats.freebytes + p.length },
        fl := { p with length := 0 } :: s.fl,
        nfree := s.nfree + 1 } := by
  simp [packet.free, packet.free_internal, Nat.ne_of_lt h]

/-- `transmit` always succeeds while the freelist has headroom, and one
call accounts exactly one packet in `txpackets + txdrop`; the freelist
either is untouched (store branch) or grows by the dropped packet. -/
theorem transmit_total (r : Link) (p : Packet) (s : Sys)
    (h : s.nfree < FREELIST_SIZE) :
    ∃ r2 s2, link.transmit r p s = some (r2, s2) ∧
      r2.txpackets + r2.txdrop = r.txpackets + r.txdrop + 1 ∧
      ((s2.nfree = s.nfree ∧ s2.fl = s.fl) ∨
       (s2.nfree = s.nfree + 1 ∧ s2.fl.length = s.fl.length + 1)) := by
  by_cases hf : link.full r = true
  · refine ⟨{ r with txdrop := r.txdrop + 1 },
      { stats := { breaths := s.stats.breaths,
                   frees := s.stats.frees + 1,
                   freebits := s.stats.freebits + (max p.length 46 + 4 + 5) * 8,
                   freebytes := s.stats.freebytes + p.length },
        fl := { p with length := 0 } :: s.fl,
        nfree := s.nfree + 1 }, ?_, ?_, Or.inr ⟨rfl, by simp⟩⟩
    · simp [link.transmit, hf, packet_free_eq p s h]
    · show r.txpackets + (r.txdrop + 1) = r.txpackets + r.txdrop + 1
      omega
  · have hf' : link.full r = false := by
      cases hc : link.full r
      · rfl
      · exact absurd hc hf
    refine ⟨{ r with
        txpackets := r.txpackets + 1,
        txbytes := r.txbytes + p.length,
        packets := fun i => if i = r.write then p else r.packets i,
        write := (r.write + 1) % LINK_RING_SIZE }, s, ?_, ?_,
      Or.inl ⟨rfl, rfl⟩⟩
    · simp [link.transmit, hf']
    · show r.txpackets + 1 + r.txdrop = r.txpackets + r.txdrop + 1
      omega

/-- The `DD`-run length never exceeds the look-ahead bound. -/
theorem ddLen_le (d : Nat → RxDesc) (nd : Nat) :
    ∀ (n idx : Nat), ddLen d nd idx n ≤ n := by
  intro n
  induction n with
  | zero => intro idx; simp [ddLen]
  | succ m ih =>
    intro idx
    simp only [ddLen]
    split
    · exact Nat.succ_le_succ (ih _)
    · exact Nat.zero_le _

/-- The descriptor loop of `rx_batch`, characterised: with freelist
headroom for the whole batch, the loop processes exactly the `DD`-run
(at most the fuel), each processed packet passing through one
`link::transmit`, when every done descriptor has `EOP` set; it panics
exactly when the `DD`-run contains a descriptor without `EOP`. -/
theorem rx_batch_go_spec :
    ∀ (n : Nat) (q : RxQueue) (l : Link) (s : Sys) (count : Nat),
      n ≤ s.nfree → s.nfree = s.fl.length → s.nfree ≤ FREELIST_SIZE →
      (ddEopOk q.descriptors q.num_descriptors q.rx_index n = true →
        ∃ q2 l2 s2, rx_batch_go n q l s count =
          some (count + ddLen q.descriptors q.num_descriptors q.rx_index n,
            q2, l2, s2) ∧
          l2.txpackets + l2.txdrop = l.txpackets + l.txdrop +
            ddLen q.descriptors q.num_descriptors q.rx_index n) ∧
      (ddEopOk q.descriptors q.num_descriptors q.rx_index n = false →
        rx_batch_go n q l s count = none) := by
  intro n
  induction n with
  | zero =>
    intro q l s count _ _ _
    constructor
    · intro _
      exact ⟨q, l, s, by simp [rx_batch_go, ddLen], by simp [ddLen]⟩
    · intro hbad
      exact absurd hbad (by simp [ddEopOk])
  | succ m ih =>
    intro q l s count hn hwf hcap
    by_cases hdd : (q.descriptors q.rx_index).dd = true
    · by_cases heop : (q.descriptors q.rx_index).eop = true
      · -- done descriptor with EOP: process it and recurse
        have hnfree : s.nfree ≠ 0 := by omega
        rcases hfl : s.fl with _ | ⟨p0, rest⟩
        · rw [hfl] at hwf
          simp at hwf
          omega
        have halloc : packet.allocate s =
            some (p0, { s with fl := rest, nfree := s.nfree - 1 }) := by
          simp [packet.allocate, hnfree, hfl]
        have hlt : s.nfree - 1 < FREELIST_SIZE := by omega
        obtain ⟨l2, s2, htx, hcount, hfree⟩ :=
          transmit_total l
            { q.bufs_in_use q.rx_index with
                length := (q.descriptors q.rx_index).length }
            { s with fl := rest, nfree := s.nfree - 1 } hlt
        have hrest : rest.length = s.nfree - 1 := by
          rw [hfl] at hwf
          simp at hwf
          omega
        have hn2 : m ≤ s2.nfree := by
          rcases hfree with ⟨h1, _⟩ | ⟨h1, _⟩ <;> simp only [h1] <;> omega
        have hwf2 : s2.nfree = s2.fl.length := by
          rcases hfree with ⟨h1, h2⟩ | ⟨h1, h2⟩
          · rw [h1, h2]; simpa using hrest.symm
          · rw [h1, h2]; simp; omega
        have hcap2 : s2.nfree ≤ FREELIST_SIZE := by
          rcases hfree with ⟨h1, _⟩ | ⟨h1, _⟩ <;> simp only [h1] <;> omega
        have ihm := ih
          { q with
            bufs_in_use := fun i => if i = q.rx_index then p0 else q.bufs_in_use i,
            rx_index := wrap_ring q.rx_index q.num_descriptors }
          l2 s2 (count + 1) hn2 hwf2 hcap2
        have hgo : rx_batch_go (m + 1) q l s count =
            rx_batch_go m
              { q with
                bufs_in_use := fun i => if i = q.rx_index then p0 else q.bufs_in_use i,
                rx_index := wrap_ring q.rx_index q.num_descriptors }
              l2 s2 (count + 1) := by
          simp [rx_batch_go, hdd, heop, halloc, htx]
        have hstep : ddLen q.descriptors q.num_descriptors q.rx_index (m + 1) =
            ddLen q.descriptors q.num_descriptors
              (wrap_ring q.rx_index q.num_descriptors) m + 1 := by
          simp [ddLen, hdd]
        constructor
        · intro hok
          have hok2 : ddEopOk q.descriptors q.num_descriptors
              (wrap_ring q.rx_index q.num_descriptors) m = true := by
            simpa [ddEopOk, hdd, heop] using hok
          obtain ⟨q2, l3, s3, hrec, hl3⟩ := ihm.1 hok2
          dsimp only at hrec hl3
          refine ⟨q2, l3, s3, ?_, ?_⟩
          · have hcnt : count + 1 + ddLen q.descriptors q.num_descriptors
                (wrap_ring q.rx_index q.num_descriptors) m =
                count + ddLen q.descriptors q.num_descriptors q.rx_index (m + 1) := by
              omega
            rw [hgo, ← hcnt]
            exact hrec
          · omega
        · intro hbad
          have hbad2 : ddEopOk q.descriptors q.num_descriptors
              (wrap_ring q.rx_index q.num_descriptors) m = false := by
            simpa [ddEopOk, hdd, heop] using hbad
          rw [hgo]
          exact ihm.2 hbad2
      · -- done descriptor without EOP: the fatal panic
        have heop' : (q.descriptors q.rx_index).eop = false := by
          cases hc : (q.descriptors q.rx_index).eop
          · rfl
          · exact absurd hc heop
        constructor
        · intro hok
          exact absurd hok (by simp [ddEopOk, hdd, heop'])
        · intro _
          simp [rx_batch_go, hdd, heop']
    · -- DD clear: the batch ends here
      have hdd' : (q.descriptors q.rx_index).dd = false := by
        cases hc : (q.descriptors q.rx_index).dd
        · rfl
        · exact absurd hc hdd
      constructor
      · intro _
        refine ⟨q, l, s, ?_, ?_⟩
        · simp [rx_batch_go, hdd', ddLen]
        · simp [ddLen, hdd']
      · intro hbad
        exact absurd hbad (by simp [ddEopOk, hdd'])

/-- C8: `rx_batch(queue, output, max)` walks descriptors in ring order
from the queue's `rx_index`; given freelist headroom for the batch (the
driver's standing invariant — freelist exhaustion is the separate
`allocate` panic), it returns — never an error — the size of the
`DD`-set descriptor run (ending the batch at the first descriptor with
`DD` clear, or after `max` packets), each counted packet having been
moved onto the output link by one `link::transmit` call; it aborts
(panics) exactly when that run meets a descriptor with `DD` set but
`EOP` clear. -/
theorem c8_rx_batch_error_handling (q : RxQueue) (output : Link) (s : Sys)
    (max : Nat) (hn : max ≤ s.nfree) (hwf : s.nfree = s.fl.length)
    (hcap : s.nfree ≤ FREELIST_SIZE) :
    (ddEopOk q.descriptors q.num_descriptors q.rx_index max = true →
      ∃ q2 l2 s2, rx_batch q output s max =
          some (ddLen q.descriptors q.num_descriptors q.rx_index max,
            q2, l2, s2) ∧
        ddLen q.descriptors q.num_descriptors q.rx_index max ≤ max ∧
        l2.txpackets + l2.txdrop = output.txpackets + output.txdrop +
          ddLen q.descriptors q.num_descriptors q.rx_index max) ∧
    (ddEopOk q.descriptors q.num_descriptors q.rx_index max = false →
      rx_batch q output s max = none) := by
  have hspec := rx_batch_go_spec max q output s 0 hn hwf hcap
  constructor
  · intro hok
    obtain ⟨q2, l2, s2, hrun, hl2⟩ := hspec.1 hok
    refine ⟨q2, l2, s2, ?_, ddLen_le _ _ _ _, hl2⟩
    simpa [rx_batch] using hrun
  · intro hbad
    simpa [rx_batch] using hspec.2 hbad

/-- Witness for C8: `rx_batch` at the concrete queue `sampleRxQueue`
(one done descriptor, then a not-done one) with batch bound 2 over the
two-packet freelist `sampleRxSys`. -/
theorem c8_rx_batch_witness :
    (2 ≤ sampleRxSys.nfree ∧ sampleRxSys.nfree = sampleRxSys.fl.length ∧
     sampleRxSys.nfree ≤ FREELIST_SIZE ∧
     ddEopOk sampleRxQueue.descriptors sampleRxQueue.num_descriptors
       sampleRxQueue.rx_index 2 = true) ∧
    ∃ q2 l2 s2, rx_batch sampleRxQueue link.new sampleRxSys 2 =
        some (ddLen sampleRxQueue.descriptors sampleRxQueue.num_descriptors
          sampleRxQueue.rx_index 2, q2, l2, s2) ∧
      ddLen sampleRxQueue.descriptors sampleRxQueue.num_descriptors
        sampleRxQueue.rx_index 2 ≤ 2 ∧
      l2.txpackets + l2.txdrop = link.new.txpackets + link.new.txdrop +
        ddLen sampleRxQueue.descriptors sampleRxQueue.num_descriptors
          sampleRxQueue.rx_index 2 :=
  ⟨⟨by decide, rfl, by decide, rfl⟩,
   (c8_rx_batch_error_handling sampleRxQueue link.new sampleRxSys 2
     (by decide) rfl (by decide)).1 rfl⟩

/-! ## C5: association-list lemmas -/

/-- Unfolding the key list of a cons. -/
theorem akeys_cons {α : Type} (k0 : String) (w0 : α) (t : List (String × α)) :
    akeys ((k0, w0) :: t) = k0 :: akeys t := rfl

/-- Unfolding `ainsert` at a matching head. -/
theorem ainsert_cons_eq {α : Type} (t : List (String × α)) (k0 : String) (w0 v : α) :
    ainsert ((k0, w0) :: t) k0 v = (k0, v) :: t := by
  simp [ainsert]

/-- Unfolding `ainsert` at a non-matching head. -/
theorem ainsert_cons_ne {α : Type} (t : List (String × α)) (k0 k : String) (w0 v : α)
    (h : k0 ≠ k) : ainsert ((k0, w0) :: t) k v = (k0, w0) :: ainsert t k v := by
  simp [ainsert, h]

/-- Unfolding `aremove` at a matching head. -/
theorem aremove_cons_eq {α : Type} (t : List (String × α)) (k0 : String) (w0 : α) :
    aremove ((k0, w0) :: t) k0 = t := by
  simp [aremove]

/-- Unfolding `aremove` at a non-matching head. -/
theorem aremove_cons_ne {α : Type} (t : List (String × α)) (k0 k : String) (w0 : α)
    (h : k0 ≠ k) : aremove ((k0, w0) :: t) k = (k0, w0) :: aremove t k := by
  simp [aremove, h]

/-- Lookup after inserting a key finds the inserted value. -/
theorem alookup_ainsert_self {α : Type} (m : List (String × α)) (k : String) (v : α) :
    alookup (ainsert m k v) k = some v := by
  induction m with
  | nil => simp [ainsert, alookup]
  | cons kv t ih =>
    obtain ⟨k0, w0⟩ := kv
    by_cases hk : k0 = k
    · simp [ainsert, hk, alookup]
    · simp [ainsert, hk, alookup, ih]

/-- Insertion does not disturb lookups of other keys. -/
theorem alookup_ainsert_ne {α : Type} (m : List (String × α)) (k n : String) (v : α)
    (h : k ≠ n) : alookup (ainsert m k v) n = alookup m n := by
  induction m with
  | nil => simp [ainsert, alookup, h]
  | cons kv t ih =>
    obtain ⟨k0, w0⟩ := kv
    by_cases hk : k0 = k
    · subst hk
      simp [ainsert, alookup, h]
    · simp only [ainsert, if_neg hk, alookup]
      by_cases hn : k0 = n
      · simp [hn]
      · simp [hn, ih]

/-- A key with a successful lookup is among the keys. -/
theorem mem_akeys_of_alookup {α : Type} (m : List (String × α)) (n : String) (v : α)
    (h : alookup m n = some v) : n ∈ akeys m := by
  induction m with
  | nil => simp [alookup] at h
  | cons kv t ih =>
    obtain ⟨k0, w0⟩ := kv
    rw [akeys_cons]
    by_cases hk : k0 = n
    · exact hk ▸ List.mem_cons_self _ _
    · simp only [alookup, if_neg hk] at h
      exact List.mem_cons_of_mem _ (ih h)

/-- A key that is absent looks up to `none`. -/
theorem alookup_eq_none {α : Type} (m : List (String × α)) (n : String)
    (h : n ∉ akeys m) : alookup m n = none := by
  induction m with
  | nil => simp [alookup]
  | cons kv t ih =>
    obtain ⟨k0, w0⟩ := kv
    rw [akeys_cons] at h
    have h1 : ¬k0 = n := fun hc => h (hc ▸ List.mem_cons_self _ _)
    have h2 : n ∉ akeys t := fun hc => h (List.mem_cons_of_mem _ hc)
    simp [alookup, h1, ih h2]

/-- With unique keys, each binding of the list is found by lookup. -/
theorem alookup_of_mem_nodup {α : Type} (m : List (String × α)) (p : String × α)
    (hm : p ∈ m) (h : (akeys m).Nodup) : alookup m p.1 = some p.2 := by
  induction m with
  | nil => simp at hm
  | cons kv t ih =>
    obtain ⟨k0, w0⟩ := kv
    rw [akeys_cons, List.nodup_cons] at h
    rcases List.mem_cons.mp hm with hp | hp
    · subst hp
      simp [alookup]
    · have hmem : p.1 ∈ akeys t := List.mem_map_of_mem (·.1) hp
      have hk : k0 ≠ p.1 := fun hc => h.1 (hc ▸ hmem)
      simp only [alookup, if_neg hk]
      exact ih hp h.2

/-- Membership in the keys after an insertion. -/
theorem mem_akeys_ainsert {α : Type} (m : List (String × α)) (k x : String) (v : α) :
    x ∈ akeys (ainsert m k v) ↔ x ∈ akeys m ∨ x = k := by
  induction m with
  | nil =>
    simp only [ainsert, akeys_cons, List.mem_cons]
    simp [akeys, eq_comm]
  | cons kv t ih =>
    obtain ⟨k0, w0⟩ := kv
    by_cases hk : k0 = k
    · subst hk
      rw [ainsert_cons_eq, akeys_cons, akeys_cons]
      simp only [List.mem_cons]
      tauto
    · rw [ainsert_cons_ne t k0 k w0 v hk, akeys_cons, akeys_cons]
      simp only [List.mem_cons, ih]
      tauto

/-- Inserting at an existing key leaves the key list unchanged. -/
theorem akeys_ainsert_of_mem {α : Type} (m : List (String × α)) (k : String) (v : α)
    (h : k ∈ akeys m) : akeys (ainsert m k v) = akeys m := by
  induction m with
  | nil => simp [akeys] at h
  | cons kv t ih =>
    obtain ⟨k0, w0⟩ := kv
    by_cases hk : k0 = k
    · subst hk
      rw [ainsert_cons_eq, akeys_cons, akeys_cons]
    · rw [akeys_cons, List.mem_cons] at h
      rcases h with h | h
      · exact absurd h.symm hk
      · rw [ainsert_cons_ne t k0 k w0 v hk, akeys_cons, akeys_cons, ih h]

/-- Inserting at a fresh key appends it to the key list. -/
theorem akeys_ainsert_of_not_mem {α : Type} (m : List (String × α)) (k : String) (v : α)
    (h : k ∉ akeys m) : akeys (ainsert m k v) = akeys m ++ [k] := by
  induction m with
  | nil =>
    simp only [ainsert, akeys_cons]
    rfl
  | cons kv t ih =>
    obtain ⟨k0, w0⟩ := kv
    rw [akeys_cons] at h
    have h1 : ¬k0 = k := fun hc => h (hc ▸ List.mem_cons_self _ _)
    have h2 : k ∉ akeys t := fun hc => h (List.mem_cons_of_mem _ hc)
    rw [ainsert_cons_ne t k0 k w0 v h1, akeys_cons, akeys_cons, ih h2]
    rfl

/-- Insertion preserves uniqueness of keys. -/
theorem nodup_akeys_ainsert {α : Type} (m : List (String × α)) (k : String) (v : α)
    (h : (akeys m).Nodup) : (akeys (ainsert m k v)).Nodup := by
  by_cases hk : k ∈ akeys m
  · rw [akeys_ainsert_of_mem m k v hk]
    exact h
  · rw [akeys_ainsert_of_not_mem m k v hk]
    simpa [List.nodup_append] using ⟨h, hk⟩

/-- The keys after a removal are a sublist of the original keys. -/
theorem akeys_aremove_sublist {α : Type} (m : List (String × α)) (k : String) :
    (akeys (aremove m k)).Sublist (akeys m) := by
  induction m with
  | nil => simp [aremove]
  | cons kv t ih =>
    obtain ⟨k0, w0⟩ := kv
    by_cases hk : k0 = k
    · simp only [aremove, if_pos hk, akeys_cons]
      exact List.sublist_cons_self _ _
    · simp only [aremove, if_neg hk, akeys_cons]
      exact ih.cons₂ _

/-- Removal preserves uniqueness of keys. -/
theorem nodup_akeys_aremove {α : Type} (m : List (String × α)) (k : String)
    (h : (akeys m).Nodup) : (akeys (aremove m k)).Nodup :=
  (akeys_aremove_sublist m k).nodup h

/-- With unique keys, removal erases exactly the removed key's binding. -/
theorem alookup_aremove {α : Type} (m : List (String × α)) (k n : String)
    (h : (akeys m).Nodup) :
    alookup (aremove m k) n = if n = k then none else alookup m n := by
  induction m with
  | nil => simp [aremove, alookup]
  | cons kv t ih =>
    obtain ⟨k0, w0⟩ := kv
    rw [akeys_cons, List.nodup_cons] at h
    by_cases hk : k0 = k
    · subst hk
      rw [aremove_cons_eq]
      by_cases hn : n = k0
      · subst hn
        simp [alookup, alookup_eq_none t n h.1]
      · simp only [if_neg hn, alookup]
        rw [if_neg (fun hc : k0 = n => hn hc.symm)]
    · rw [aremove_cons_ne t k0 k w0 hk]
      simp only [alookup]
      by_cases hn : k0 = n
      · subst hn
        simp [fun hc : k0 = k => hk hc]
      · simp only [if_neg hn]
        exact ih h.2

/-! ## C5: engine-level lemmas -/

/-- Rewiring a port map (or any update that keeps `inst` and `conf`)
leaves the engine-visible app identities unchanged. -/
theorem appView_ainsert (m : List (String × AppState)) (k : String)
    (r0 r1 : AppState) (hl : alookup m k = some r0) (hi : r1.inst = r0.inst)
    (hc : r1.conf = r0.conf) :
    ∀ n, appView (ainsert m k r1) n = appView m n := by
  intro n
  by_cases hn : n = k
  · subst hn
    simp [appView, alookup_ainsert_self, hl, hi, hc]
  · simp [appView, alookup_ainsert_ne m k n r1 (fun hc2 => hn hc2.symm)]

/-- `appView` is `some` exactly when the name is bound. -/
theorem appView_isSome (m : List (String × AppState)) (n : String) :
    (appView m n).isSome = (alookup m n).isSome := by
  simp [appView]

/-- `link_apps` written out: the `or_insert` applied to `link_table`,
the two port-map insertions applied to `app_table`. -/
theorem link_apps_unfold (st : EngineState) (spec : String) :
    link_apps st spec =
      match parse_link spec with
      | none => none
      | some sp =>
        match alookup st.app_table sp.from_ with
        | none => none
        | some fa =>
          match alookup (ainsert st.app_table sp.from_
              { fa with output := ainsert fa.output sp.output spec }) sp.to_ with
          | none => none
          | some ta =>
            some ({ link_table :=
                      if (alookup st.link_table spec).isSome = true
                      then st.link_table
                      else ainsert st.link_table spec link.new,
                    app_table := ainsert (ainsert st.app_table sp.from_
                      { fa with output := ainsert fa.output sp.output spec }) sp.to_
                      { ta with input := ainsert ta.input sp.input spec },
                    nextInst := st.nextInst },
              !(alookup st.link_table spec).isSome) := by
  by_cases hkey : (alookup st.link_table spec).isSome = true
  · unfold link_apps
    simp only [hkey, eq_self_iff_true, if_true]
  · have hkey' : (alookup st.link_table spec).isSome = false := by
      simpa using hkey
    unfold link_apps
    simp only [hkey', Bool.false_eq_true, if_false]

/-- Inversion of a successful `link_apps`: the spec parsed and both
endpoint apps were bound. -/
theorem link_apps_inv (st : EngineState) (spec : String) (st2 : EngineState)
    (b : Bool) (h : link_apps st spec = some (st2, b)) :
    ∃ sp, parse_link spec = some sp ∧
      (alookup st.app_table sp.from_).isSome = true ∧
      (alookup st.app_table sp.to_).isSome = true := by
  rw [link_apps_unfold] at h
  rcases hparse : parse_link spec with _ | sp
  · rw [hparse] at h
    simp at h
  · rw [hparse] at h
    dsimp only at h
    rcases hfa : alookup st.app_table sp.from_ with _ | fa
    · rw [hfa] at h
      simp at h
    · rw [hfa] at h
      dsimp only at h
      rcases hta : alookup (ainsert st.app_table sp.from_
          { fa with output := ainsert fa.output sp.output spec }) sp.to_ with _ | ta
      · rw [hta] at h
        simp at h
      · have hview := appView_ainsert st.app_table sp.from_ fa
          { fa with output := ainsert fa.output sp.output spec } hfa rfl rfl sp.to_
        have hsome : (alookup st.app_table sp.to_).isSome = true := by
          rw [← appView_isSome, ← hview, appView_isSome, hta]
          rfl
        exact ⟨sp, rfl, by simp [hfa], hsome⟩

/-- Running `link_apps` under its preconditions: it succeeds, reports a
fresh link exactly when the key was absent, inserts the key if needed,
and preserves the app-table keys and the engine-visible app
identities. -/
theorem link_apps_run (st : EngineState) (spec : String) (sp : LinkSpec)
    (hparse : parse_link spec = some sp)
    (hfrom : (alookup st.app_table sp.from_).isSome = true)
    (hto : (alookup st.app_table sp.to_).isSome = true) :
    ∃ st2, link_apps st spec =
        some (st2, !(alookup st.link_table spec).isSome) ∧
      st2.link_table = (if (alookup st.link_table spec).isSome = true
        then st.link_table else ainsert st.link_table spec link.new) ∧
      st2.nextInst = st.nextInst ∧
      akeys st2.app_table = akeys st.app_table ∧
      (∀ n, appView st2.app_table n = appView st.app_table n) := by
  obtain ⟨fa, hfa⟩ := Option.isSome_iff_exists.mp hfrom
  have hview1 := appView_ainsert st.app_table sp.from_ fa
    { fa with output := ainsert fa.output sp.output spec } hfa rfl rfl
  have hkeys1 : akeys (ainsert st.app_table sp.from_
      { fa with output := ainsert fa.output sp.output spec }) = akeys st.app_table :=
    akeys_ainsert_of_mem _ _ _ (mem_akeys_of_alookup _ _ _ hfa)
  have hto1 : (alookup (ainsert st.app_table sp.from_
      { fa with output := ainsert fa.output sp.output spec }) sp.to_).isSome = true := by
    rw [← appView_isSome, hview1 sp.to_, appView_isSome]
    exact hto
  obtain ⟨ta, hta⟩ := Option.isSome_iff_exists.mp hto1
  have hview2 := appView_ainsert _ sp.to_ ta
    { ta with input := ainsert ta.input sp.input spec } hta rfl rfl
  have hkeys2 : akeys (ainsert (ainsert st.app_table sp.from_
      { fa with output := ainsert fa.output sp.output spec }) sp.to_
      { ta with input := ainsert ta.input sp.input spec }) =
      akeys (ainsert st.app_table sp.from_
        { fa with output := ainsert fa.output sp.output spec }) :=
    akeys_ainsert_of_mem _ _ _ (mem_akeys_of_alookup _ _ _ hta)
  refine ⟨{ link_table := if (alookup st.link_table spec).isSome = true
              then st.link_table else ainsert st.link_table spec link.new,
            app_table := ainsert (ainsert st.app_table sp.from_
              { fa with output := ainsert fa.output sp.output spec }) sp.to_
              { ta with input := ainsert ta.input sp.input spec },
            nextInst := st.nextInst }, ?_, rfl, rfl, ?_, ?_⟩
  · rw [link_apps_unfold, hparse]
    dsimp only
    rw [hfa]
    dsimp only
    rw [hta]
  · exact hkeys1 ▸ hkeys2
  · intro n
    rw [hview2 n, hview1 n]

/-- Phase-4 characterisation for an arbitrary starting state: a
successful `applyLinks` leaves every listed spec keyed in the link
table, only adds listed specs to the key set, keeps every prior key,
leaves every listed spec parseable with bound endpoints, and preserves
the app-table keys, the engine-visible app identities, and key
uniqueness. -/
theorem applyLinks_spec :
    ∀ (specs : List String) (st st2 : EngineState) (fresh : List String),
      applyLinks specs st = some (st2, fresh) →
      (∀ spec ∈ specs, spec ∈ akeys st2.link_table) ∧
      (∀ x ∈ akeys st2.link_table, x ∈ akeys st.link_table ∨ x ∈ specs) ∧
      (∀ x ∈ akeys st.link_table, x ∈ akeys st2.link_table) ∧
      (∀ spec ∈ specs, ∃ sp, parse_link spec = some sp ∧
        (alookup st2.app_table sp.from_).isSome = true ∧
        (alookup st2.app_table sp.to_).isSome = true) ∧
      akeys st2.app_table = akeys st.app_table ∧
      (∀ n, appView st2.app_table n = appView st.app_table n) ∧
      ((akeys st.link_table).Nodup → (akeys st2.link_table).Nodup) := by
  intro specs
  induction specs with
  | nil =>
    intro st st2 fresh h
    simp only [applyLinks, Option.some.injEq] at h
    obtain ⟨h1, _⟩ := Prod.mk.injEq _ _ _ _ ▸ h
    subst h1
    refine ⟨by simp, fun x hx => Or.inl hx, fun x hx => hx, by simp, rfl,
      fun _ => rfl, fun hn => hn⟩
  | cons spec rest ih =>
    intro st st2 fresh h
    simp only [applyLinks] at h
    rcases hla : link_apps st spec with _ | p
    · rw [hla] at h
      simp at h
    · obtain ⟨stm, bfresh⟩ := p
      rw [hla] at h
      dsimp only at h
      rcases hrest : applyLinks rest stm with _ | q
      · rw [hrest] at h
        simp at h
      · obtain ⟨stf, freshRest⟩ := q
        rw [hrest] at h
        dsimp only at h
        have hpair : stf = st2 ∧
            (if bfresh = true then spec :: freshRest else freshRest) = fresh := by
          simpa using h
        obtain ⟨hstf, -⟩ := hpair
        subst hstf
        obtain ⟨sp, hsp, hf, ht⟩ := link_apps_inv st spec stm bfresh hla
        obtain ⟨stm', heq, hlt, _, hkeys, hview⟩ := link_apps_run st spec sp hsp hf ht
        rw [hla] at heq
        have hpair2 : stm = stm' ∧ bfresh = !(alookup st.link_table spec).isSome := by
          simpa using heq
        obtain ⟨hstm, -⟩ := hpair2
        subst hstm
        obtain ⟨ih1, ih2, ih3, ih4, ih5, ih6, ih7⟩ :=
          ih stm stf freshRest hrest
        have hmemlt : ∀ x, x ∈ akeys stm.link_table ↔
            (x ∈ akeys st.link_table ∨ x = spec) := by
          intro x
          by_cases hpres : (alookup st.link_table spec).isSome = true
          · rw [hlt, if_pos hpres]
            constructor
            · exact Or.inl
            · intro hx
              rcases hx with hx | hx
              · exact hx
              · subst hx
                obtain ⟨v, hv⟩ := Option.isSome_iff_exists.mp hpres
                exact mem_akeys_of_alookup _ _ _ hv
          · rw [hlt, if_neg hpres]
            exact mem_akeys_ainsert st.link_table spec x link.new
        refine ⟨?_, ?_, ?_, ?_, ?_, ?_, ?_⟩
        · intro s hs
          rcases List.mem_cons.mp hs with hs | hs
          · subst hs
            exact ih3 s ((hmemlt s).mpr (Or.inr rfl))
          · exact ih1 s hs
        · intro x hx
          rcases ih2 x hx with hx2 | hx2
          · rcases (hmemlt x).mp hx2 with hx3 | hx3
            · exact Or.inl hx3
            · exact Or.inr (hx3 ▸ List.mem_cons_self _ _)
          · exact Or.inr (List.mem_cons_of_mem _ hx2)
        · intro x hx
          exact ih3 x ((hmemlt x).mpr (Or.inl hx))
        · intro s hs
          rcases List.mem_cons.mp hs with hs | hs
          · subst hs
            refine ⟨sp, hsp, ?_, ?_⟩
            · rw [← appView_isSome, ih6 sp.from_, hview sp.from_, appView_isSome]
              exact hf
            · rw [← appView_isSome, ih6 sp.to_, hview sp.to_, appView_isSome]
              exact ht
          · exact ih4 s hs
        · rw [ih5, hkeys]
        · intro n
          rw [ih6 n, hview n]
        · intro hn
          apply ih7
          by_cases hpres : (alookup st.link_table spec).isSome = true
          · rw [hlt, if_pos hpres]
            exact hn
          · rw [hlt, if_neg hpres]
            exact nodup_akeys_ainsert _ _ _ hn

/-- Phase 4 on a state where every spec's link already exists and both
endpoints are bound: no fresh link is created and the link table is
untouched, while engine-visible app identities survive. -/
theorem applyLinks_noop :
    ∀ (specs : List String) (st : EngineState),
      (∀ spec ∈ specs, spec ∈ akeys st.link_table) →
      (∀ spec ∈ specs, ∃ sp, parse_link spec = some sp ∧
        (alookup st.app_table sp.from_).isSome = true ∧
        (alookup st.app_table sp.to_).isSome = true) →
      ∃ st2, applyLinks specs st = some (st2, []) ∧
        st2.link_table = st.link_table ∧
        (∀ n, appView st2.app_table n = appView st.app_table n) := by
  intro specs
  induction specs with
  | nil =>
    intro st _ _
    exact ⟨st, rfl, rfl, fun _ => rfl⟩
  | cons spec rest ih =>
    intro st hmem hok
    obtain ⟨sp, hsp, hf, ht⟩ := hok spec (List.mem_cons_self _ _)
    obtain ⟨stm, heq, hlt, _, _, hview⟩ := link_apps_run st spec sp hsp hf ht
    have hpres : (alookup st.link_table spec).isSome = true := by
      obtain ⟨v, hv⟩ := alookup_isSome_of_mem_akeys st.link_table spec
        (hmem spec (List.mem_cons_self _ _))
      simp [hv]
    have hlt' : stm.link_table = st.link_table := by
      rw [hlt, if_pos hpres]
    rw [hpres] at heq
    have hmem' : ∀ s ∈ rest, s ∈ akeys stm.link_table := by
      intro s hs
      rw [hlt']
      exact hmem s (List.mem_cons_of_mem _ hs)
    have hok' : ∀ s ∈ rest, ∃ sp2, parse_link s = some sp2 ∧
        (alookup stm.app_table sp2.from_).isSome = true ∧
        (alookup stm.app_table sp2.to_).isSome = true := by
      intro s hs
      obtain ⟨sp2, h1, h2, h3⟩ := hok s (List.mem_cons_of_mem _ hs)
      refine ⟨sp2, h1, ?_, ?_⟩
      · rw [← appView_isSome, hview sp2.from_, appView_isSome]
        exact h2
      · rw [← appView_isSome, hview sp2.to_, appView_isSome]
        exact h3
    obtain ⟨stf, hrun, hlt2, hview2⟩ := ih stm hmem' hok'
    refine ⟨stf, ?_, by rw [hlt2, hlt'], fun n => by rw [hview2 n, hview n]⟩
    simp only [applyLinks]
    rw [heq]
    dsimp only
    rw [hrun]
    simp

/-- `unlink_apps` written out. -/
theorem unlink_apps_unfold (st : EngineState) (k : String) :
    unlink_apps st k =
      match parse_link k with
      | none => none
      | some sp =>
        match alookup st.app_table sp.from_ with
        | none => none
        | some fa =>
          match alookup (ainsert st.app_table sp.from_
              { fa with output := aremove fa.output sp.output }) sp.to_ with
          | none => none
          | some ta =>
            some { link_table := aremove st.link_table k,
                   app_table := ainsert (ainsert st.app_table sp.from_
                     { fa with output := aremove fa.output sp.output }) sp.to_
                     { ta with input := aremove ta.input sp.input },
                   nextInst := st.nextInst } := rfl

/-- A successful `unlink_apps` removes the link-table key and keeps the
app-table key set (only port maps are rewired). -/
theorem unlink_apps_spec (st : EngineState) (k : String) (st2 : EngineState)
    (h : unlink_apps st k = some st2) :
    st2.link_table = aremove st.link_table k ∧
    akeys st2.app_table = akeys st.app_table := by
  rw [unlink_apps_unfold] at h
  rcases hparse : parse_link k with _ | sp
  · rw [hparse] at h
    simp at h
  · rw [hparse] at h
    dsimp only at h
    rcases hfa : alookup st.app_table sp.from_ with _ | fa
    · rw [hfa] at h
      simp at h
    · rw [hfa] at h
      dsimp only at h
      rcases hta : alookup (ainsert st.app_table sp.from_
          { fa with output := aremove fa.output sp.output }) sp.to_ with _ | ta
      · rw [hta] at h
        simp at h
      · rw [hta] at h
        dsimp only at h
        have hst2 : _ = st2 := Option.some.inj h
        subst hst2
        refine ⟨rfl, ?_⟩
        rw [akeys_ainsert_of_mem _ _ _ (mem_akeys_of_alookup _ _ _ hta),
          akeys_ainsert_of_mem _ _ _ (mem_akeys_of_alookup _ _ _ hfa)]

/-- With unique keys, the removed key is gone from the key set. -/
theorem not_mem_akeys_aremove {α : Type} (m : List (String × α)) (k : String)
    (h : (akeys m).Nodup) : k ∉ akeys (aremove m k) := by
  intro hmem
  obtain ⟨v, hv⟩ := alookup_isSome_of_mem_akeys _ k hmem
  rw [alookup_aremove m k k h] at hv
  simp at hv

/-- Phase-1 characterisation: a successful `removeDeadLinks` over a
snapshot covering the live keys leaves only keys the config mentions,
keeps key uniqueness, and does not change the app-table key set. -/
theorem removeDeadLinks_spec :
    ∀ (snapshot : List String) (st : EngineState) (c : Config) (st2 : EngineState),
      removeDeadLinks snapshot st c = some st2 →
      (akeys st.link_table).Nodup →
      (∀ k ∈ akeys st.link_table, k ∈ c.links ∨ k ∈ snapshot) →
      (∀ k ∈ akeys st2.link_table, k ∈ c.links) ∧
      (akeys st2.link_table).Nodup ∧
      akeys st2.app_table = akeys st.app_table := by
  intro snapshot
  induction snapshot with
  | nil =>
    intro st c st2 h hnd hinv
    have hst2 : st = st2 := Option.some.inj h
    subst hst2
    refine ⟨?_, hnd, rfl⟩
    intro k hk
    rcases hinv k hk with hk2 | hk2
    · exact hk2
    · simp at hk2
  | cons k rest ih =>
    intro st c st2 h hnd hinv
    simp only [removeDeadLinks] at h
    by_cases hc : c.links.contains k = true
    · rw [if_pos hc] at h
      have hkmem : k ∈ c.links := by simpa using hc
      refine ih st c st2 h hnd ?_
      intro x hx
      rcases hinv x hx with hx2 | hx2
      · exact Or.inl hx2
      · rcases List.mem_cons.mp hx2 with hx3 | hx3
        · exact Or.inl (hx3 ▸ hkmem)
        · exact Or.inr hx3
    · rw [if_neg hc] at h
      rcases hu : unlink_apps st k with _ | stm
      · rw [hu] at h
        simp at h
      · rw [hu] at h
        dsimp only at h
        obtain ⟨hlt, happ⟩ := unlink_apps_spec st k stm hu
        have hnd' : (akeys stm.link_table).Nodup := by
          rw [hlt]
          exact nodup_akeys_aremove _ _ hnd
        have hinv' : ∀ x ∈ akeys stm.link_table, x ∈ c.links ∨ x ∈ rest := by
          intro x hx
          rw [hlt] at hx
          have hxmem : x ∈ akeys st.link_table :=
            (akeys_aremove_sublist st.link_table k).mem hx
          have hxne : x ≠ k := by
            intro hxe
            exact not_mem_akeys_aremove st.link_table k hnd (hxe ▸ hx)
          rcases hinv x hxmem with hx2 | hx2
          · exact Or.inl hx2
          · rcases List.mem_cons.mp hx2 with hx3 | hx3
            · exact absurd hx3 hxne
            · exact Or.inr hx3
        obtain ⟨c1, c2, c3⟩ := ih stm c st2 h hnd' hinv'
        exact ⟨c1, c2, by rw [c3, happ]⟩

/-- Phase 1 on a snapshot wholly mentioned by the config: a no-op. -/
theorem removeDeadLinks_noop :
    ∀ (snapshot : List String) (st : EngineState) (c : Config),
      (∀ k ∈ snapshot, k ∈ c.links) →
      removeDeadLinks snapshot st c = some st := by
  intro snapshot
  induction snapshot with
  | nil =>
    intro st c _
    rfl
  | cons k rest ih =>
    intro st c hmem
    have hc : c.links.contains k = true := by
      simpa using hmem k (List.mem_cons_self _ _)
    simp only [removeDeadLinks, if_pos hc]
    exact ih st c (fun x hx => hmem x (List.mem_cons_of_mem _ hx))

/-- Phase-2 characterisation: after the sweep every surviving app's
configuration identity matches the config, every surviving entry is an
untouched entry of the input state, keys stay unique, and the rest of
the engine state is untouched. -/
theorem sweepApps_spec :
    ∀ (names : List String) (st : EngineState) (c : Config) (st2 : EngineState)
      (stopped : List String),
      sweepApps names st c = (st2, stopped) →
      (akeys st.app_table).Nodup →
      (∀ n r, alookup st.app_table n = some r →
        n ∈ names ∨ ∃ conf, alookup c.apps n = some conf ∧ r.conf.id = conf.id) →
      (∀ n r, alookup st2.app_table n = some r →
        ∃ conf, alookup c.apps n = some conf ∧ r.conf.id = conf.id) ∧
      (∀ n r, alookup st2.app_table n = some r → alookup st.app_table n = some r) ∧
      (akeys st2.app_table).Nodup ∧
      st2.link_table = st.link_table ∧ st2.nextInst = st.nextInst := by
  intro names
  induction names with
  | nil =>
    intro st c st2 stopped h hnd hinv
    simp only [sweepApps, Prod.mk.injEq] at h
    obtain ⟨h1, _⟩ := h
    subst h1
    refine ⟨?_, fun n r hr => hr, hnd, rfl, rfl⟩
    intro n r hr
    rcases hinv n r hr with hn | hn
    · simp at hn
    · exact hn
  | cons name rest ih =>
    intro st c st2 stopped h hnd hinv
    simp only [sweepApps] at h
    rcases hl : alookup st.app_table name with _ | old
    · rw [hl] at h
      dsimp only at h
      refine ih st c st2 stopped h hnd ?_
      intro n r hr
      rcases hinv n r hr with hn | hn
      · rcases List.mem_cons.mp hn with hn2 | hn2
        · subst hn2
          rw [hl] at hr
          cases hr
        · exact Or.inl hn2
      · exact Or.inr hn
    · rw [hl] at h
      dsimp only at h
      rcases hcl : alookup c.apps name with _ | newConf
      · -- the app is not in the new config: it is stopped
        rw [hcl] at h
        dsimp only at h
        rcases hsw : sweepApps rest (stop_app st name) c with ⟨stm, stoppedRest⟩
        rw [hsw] at h
        dsimp only at h
        obtain ⟨h1, _⟩ := Prod.mk.injEq _ _ _ _ ▸ h
        subst h1
        have hnd' : (akeys (stop_app st name).app_table).Nodup :=
          nodup_akeys_aremove _ _ hnd
        have hinv' : ∀ n r, alookup (stop_app st name).app_table n = some r →
            n ∈ rest ∨ ∃ conf, alookup c.apps n = some conf ∧ r.conf.id = conf.id := by
          intro n r hr
          rw [show (stop_app st name).app_table = aremove st.app_table name from rfl,
            alookup_aremove st.app_table name n hnd] at hr
          by_cases hn : n = name
          · rw [if_pos hn] at hr
            cases hr
          · rw [if_neg hn] at hr
            rcases hinv n r hr with hn2 | hn2
            · rcases List.mem_cons.mp hn2 with hn3 | hn3
              · exact absurd hn3 hn
              · exact Or.inl hn3
            · exact Or.inr hn2
        obtain ⟨c1, c2, c3, c4, c5⟩ := ih (stop_app st name) c stm stoppedRest hsw hnd' hinv'
        refine ⟨c1, ?_, c3, c4, c5⟩
        intro n r hr
        have := c2 n r hr
        rw [show (stop_app st name).app_table = aremove st.app_table name from rfl,
          alookup_aremove st.app_table name n hnd] at this
        by_cases hn : n = name
        · rw [if_pos hn] at this
          cases this
        · rw [if_neg hn] at this
          exact this
      · rw [hcl] at h
        dsimp only at h
        by_cases hid : old.conf.id = newConf.id
        · -- identities match: the app survives untouched
          rw [if_pos hid] at h
          refine ih st c st2 stopped h hnd ?_
          intro n r hr
          rcases hinv n r hr with hn | hn
          · rcases List.mem_cons.mp hn with hn2 | hn2
            · subst hn2
              rw [hl] at hr
              have hold : old = r := Option.some.inj hr
              subst hold
              exact Or.inr ⟨newConf, hcl, hid⟩
            · exact Or.inl hn2
          · exact Or.inr hn
        · -- identity changed: the app is stopped
          rw [if_neg hid] at h
          rcases hsw : sweepApps rest (stop_app st name) c with ⟨stm, stoppedRest⟩
          rw [hsw] at h
          dsimp only at h
          obtain ⟨h1, _⟩ := Prod.mk.injEq _ _ _ _ ▸ h
          subst h1
          have hnd' : (akeys (stop_app st name).app_table).Nodup :=
            nodup_akeys_aremove _ _ hnd
          have hinv' : ∀ n r, alookup (stop_app st name).app_table n = some r →
              n ∈ rest ∨ ∃ conf, alookup c.apps n = some conf ∧ r.conf.id = conf.id := by
            intro n r hr
            rw [show (stop_app st name).app_table = aremove st.app_table name from rfl,
              alookup_aremove st.app_table name n hnd] at hr
            by_cases hn : n = name
            · rw [if_pos hn] at hr
              cases hr
            · rw [if_neg hn] at hr
              rcases hinv n r hr with hn2 | hn2
              · rcases List.mem_cons.mp hn2 with hn3 | hn3
                · exact absurd hn3 hn
                · exact Or.inl hn3
              · exact Or.inr hn2
          obtain ⟨c1, c2, c3, c4, c5⟩ := ih (stop_app st name) c stm stoppedRest hsw hnd' hinv'
          refine ⟨c1, ?_, c3, c4, c5⟩
          intro n r hr
          have := c2 n r hr
          rw [show (stop_app st name).app_table = aremove st.app_table name from rfl,
            alookup_aremove st.app_table name n hnd] at this
          by_cases hn : n = name
          · rw [if_pos hn] at this
            cases this
          · rw [if_neg hn] at this
            exact this

/-- Phase 2 on a state whose every app matches the config: a no-op. -/
theorem sweepApps_noop :
    ∀ (names : List String) (st : EngineState) (c : Config),
      (∀ n r, alookup st.app_table n = some r →
        ∃ conf, alookup c.apps n = some conf ∧ r.conf.id = conf.id) →
      sweepApps names st c = (st, []) := by
  intro names
  induction names with
  | nil =>
    intro st c _
    rfl
  | cons name rest ih =>
    intro st c hok
    simp only [sweepApps]
    rcases hl : alookup st.app_table name with _ | old
    · exact ih st c hok
    · obtain ⟨conf, hcl, hid⟩ := hok name old hl
      rw [hcl]
      dsimp only
      rw [if_pos hid]
      exact ih st c hok

/-- Phase-3 characterisation: starting the missing apps preserves every
existing binding verbatim, adds only entries drawn from the config
list, leaves every configured name bound, and keeps key uniqueness and
the link table. -/
theorem startApps_spec :
    ∀ (apps : List (String × AppConf)) (st st2 : EngineState)
      (started : List String),
      startApps apps st = (st2, started) →
      (akeys st.app_table).Nodup →
      (∀ n r, alookup st.app_table n = some r → alookup st2.app_table n = some r) ∧
      (∀ n r, alookup st2.app_table n = some r →
        alookup st.app_table n = some r ∨ ∃ p ∈ apps, p.1 = n ∧ r.conf = p.2) ∧
      (∀ p ∈ apps, (alookup st2.app_table p.1).isSome = true) ∧
      (akeys st2.app_table).Nodup ∧
      st2.link_table = st.link_table := by
  intro apps
  induction apps with
  | nil =>
    intro st st2 started h hnd
    simp only [startApps, Prod.mk.injEq] at h
    obtain ⟨h1, _⟩ := h
    subst h1
    exact ⟨fun n r hr => hr, fun n r hr => Or.inl hr, by simp, hnd, rfl⟩
  | cons p rest ih =>
    intro st st2 started h hnd
    obtain ⟨name, conf⟩ := p
    simp only [startApps] at h
    rcases hl : alookup st.app_table name with _ | r0
    · rw [hl] at h
      dsimp only at h
      rcases hsa : startApps rest (start_app st name conf) with ⟨stm, startedRest⟩
      rw [hsa] at h
      dsimp only at h
      obtain ⟨h1, _⟩ := Prod.mk.injEq _ _ _ _ ▸ h
      subst h1
      have hnotmem : name ∉ akeys st.app_table := by
        intro hm
        obtain ⟨v, hv⟩ := alookup_isSome_of_mem_akeys _ _ hm
        rw [hv] at hl
        cases hl
      have happ : (start_app st name conf).app_table =
          ainsert st.app_table name
            { inst := st.nextInst, conf := conf, input := [], output := [] } := rfl
      have hnd' : (akeys (start_app st name conf).app_table).Nodup := by
        rw [happ]
        exact nodup_akeys_ainsert _ _ _ hnd
      obtain ⟨c1, c2, c3, c4, c5⟩ := ih (start_app st name conf) stm startedRest hsa hnd'
      refine ⟨?_, ?_, ?_, c4, by rw [c5]; rfl⟩
      · intro n r hr
        have hne : name ≠ n := by
          intro hc
          rw [← hc, hl] at hr
          cases hr
        apply c1
        rw [happ, alookup_ainsert_ne _ _ _ _ hne]
        exact hr
      · intro n r hr
        rcases c2 n r hr with hr2 | hr2
        · rw [happ] at hr2
          by_cases hn : n = name
          · subst hn
            rw [alookup_ainsert_self] at hr2
            have hrr := Option.some.inj hr2
            refine Or.inr ⟨(n, conf), List.mem_cons_self _ _, rfl, ?_⟩
            rw [← hrr]
          · rw [alookup_ainsert_ne _ _ _ _ (fun hc => hn hc.symm)] at hr2
            exact Or.inl hr2
        · obtain ⟨q, hq, hq2⟩ := hr2
          exact Or.inr ⟨q, List.mem_cons_of_mem _ hq, hq2⟩
      · intro q hq
        rcases List.mem_cons.mp hq with hq2 | hq2
        · subst hq2
          have : alookup stm.app_table name = some
              { inst := st.nextInst, conf := conf, input := [], output := [] } := by
            apply c1
            rw [happ, alookup_ainsert_self]
          simp [this]
        · exact c3 q hq2
    · rw [hl] at h
      dsimp only at h
      obtain ⟨c1, c2, c3, c4, c5⟩ := ih st st2 started h hnd
      refine ⟨c1, ?_, ?_, c4, c5⟩
      · intro n r hr
        rcases c2 n r hr with hr2 | hr2
        · exact Or.inl hr2
        · obtain ⟨q, hq, hq2⟩ := hr2
          exact Or.inr ⟨q, List.mem_cons_of_mem _ hq, hq2⟩
      · intro q hq
        rcases List.mem_cons.mp hq with hq2 | hq2
        · subst hq2
          have hsome := c1 name r0 hl
          simp [hsome]
        · exact c3 q hq2

/-- Phase 3 on a state where every configured app exists: a no-op. -/
theorem startApps_noop :
    ∀ (apps : List (String × AppConf)) (st : EngineState),
      (∀ p ∈ apps, (alookup st.app_table p.1).isSome = true) →
      startApps apps st = (st, []) := by
  intro apps
  induction apps with
  | nil =>
    intro st _
    rfl
  | cons p rest ih =>
    intro st hok
    obtain ⟨name, conf⟩ := p
    obtain ⟨r0, hr0⟩ := Option.isSome_iff_exists.mp (hok (name, conf) (List.mem_cons_self _ _))
    simp only [startApps]
    rw [hr0]
    dsimp only
    exact ih st (fun q hq => hok q (List.mem_cons_of_mem _ hq))

/-! ## C5 -/

/-- C5: applying the same config twice is a no-op the second time.  For
any engine state with well-formed (unique-key) tables and any config
with unique app names, if `configure(state, C)` succeeds, then running
`configure` again on its result succeeds while stopping no app,
instantiating no app, and creating no fresh link (`log2 = ⟨[], [], []⟩`),
leaving the link table — hence every link's counters — identical, and
leaving every app's object identity (`inst`) and `AppArg` identity
unchanged. -/
theorem c5_configure_idempotent (s : EngineState) (c : Config)
    (hl : (akeys s.link_table).Nodup) (ha : (akeys s.app_table).Nodup)
    (hwfc : (akeys c.apps).Nodup) (s1 : EngineState) (log1 : MigrationLog)
    (h : configure s c = some (s1, log1)) :
    ∃ s2 log2, configure s1 c = some (s2, log2) ∧
      log2.stopped = [] ∧ log2.started = [] ∧ log2.fresh = [] ∧
      s2.link_table = s1.link_table ∧
      (∀ n, appView s2.app_table n = appView s1.app_table n) := by
  -- invert the first call into its four phases
  simp only [configure] at h
  rcases hrd : removeDeadLinks (akeys s.link_table) s c with _ | stA
  · rw [hrd] at h
    simp at h
  rw [hrd] at h
  dsimp only at h
  rcases hsw : sweepApps (akeys stA.app_table) stA c with ⟨stB, stopped⟩
  rw [hsw] at h
  dsimp only at h
  rcases hsa : startApps c.apps stB with ⟨stC, started⟩
  rw [hsa] at h
  dsimp only at h
  rcases hap : applyLinks c.links stC with _ | pr
  · rw [hap] at h
    simp at h
  obtain ⟨s1', fresh⟩ := pr
  rw [hap] at h
  dsimp only at h
  have hpair : s1 = s1' := by
    have := Option.some.inj h
    exact (congrArg Prod.fst this).symm
  subst hpair
  -- facts established by the first call
  obtain ⟨p1a, hndAlt, happA⟩ :=
    removeDeadLinks_spec (akeys s.link_table) s c stA hrd hl
      (fun k hk => Or.inr hk)
  have hndAapp : (akeys stA.app_table).Nodup := happA ▸ ha
  obtain ⟨sw1, sw2, sw3, sw4, sw5⟩ :=
    sweepApps_spec (akeys stA.app_table) stA c stB stopped hsw hndAapp
      (fun n r hr => Or.inl (mem_akeys_of_alookup _ _ _ hr))
  obtain ⟨st1, st2c, st3, st4, st5⟩ := startApps_spec c.apps stB stC started hsa sw3
  obtain ⟨ap1, ap2, ap3, ap4, ap5, ap6, ap7⟩ := applyLinks_spec c.links stC s1 fresh hap
  -- every surviving key of the link table is configured
  have p1aS1 : ∀ k ∈ akeys s1.link_table, k ∈ c.links := by
    intro k hk
    rcases ap2 k hk with hk2 | hk2
    · apply p1a
      rw [← sw4, ← st5]
      exact hk2
    · exact hk2
  -- every app of the final state matches the config identity
  have p2stC : ∀ n r, alookup stC.app_table n = some r →
      ∃ conf, alookup c.apps n = some conf ∧ r.conf.id = conf.id := by
    intro n r hr
    rcases st2c n r hr with hr2 | hr2
    · exact sw1 n r hr2
    · obtain ⟨p, hp, hp1, hp2⟩ := hr2
      refine ⟨p.2, ?_, by rw [hp2]⟩
      rw [← hp1]
      exact alookup_of_mem_nodup c.apps p hp hwfc
  have p2S1 : ∀ n r, alookup s1.app_table n = some r →
      ∃ conf, alookup c.apps n = some conf ∧ r.conf.id = conf.id := by
    intro n r hr
    have hv : appView stC.app_table n = some (r.inst, r.conf.id) := by
      rw [← ap6 n]
      simp [appView, hr]
    obtain ⟨r', hr', hproj⟩ := Option.map_eq_some'.mp hv
    obtain ⟨conf, hconf, hid⟩ := p2stC n r' hr'
    refine ⟨conf, hconf, ?_⟩
    have : r'.conf.id = r.conf.id := congrArg Prod.snd hproj
    rw [← this]
    exact hid
  -- every configured app is present in the final state
  have p3S1 : ∀ p ∈ c.apps, (alookup s1.app_table p.1).isSome = true := by
    intro p hp
    rw [← appView_isSome, ap6 p.1, appView_isSome]
    exact st3 p hp
  -- every configured link parses with bound endpoints in the final state
  have p4S1 := ap4
  -- the second call runs every phase as a no-op
  have hrd2 : removeDeadLinks (akeys s1.link_table) s1 c = some s1 :=
    removeDeadLinks_noop _ s1 c p1aS1
  have hsw2 : sweepApps (akeys s1.app_table) s1 c = (s1, []) :=
    sweepApps_noop _ s1 c p2S1
  have hsa2 : startApps c.apps s1 = (s1, []) :=
    startApps_noop c.apps s1 p3S1
  obtain ⟨s2, hap2, hlt2, hview2⟩ := applyLinks_noop c.links s1 ap1 p4S1
  refine ⟨s2, { stopped := [], started := [], fresh := [] }, ?_, rfl, rfl, rfl,
    hlt2, hview2⟩
  simp only [configure]
  rw [hrd2]
  dsimp only
  rw [hsw2]
  dsimp only
  rw [hsa2]
  dsimp only
  rw [hap2]

/-- Witness for C5: the idempotence theorem applied to the concrete
`Source -> Sink` configuration applied to a fresh engine, every
hypothesis discharged by computation (the first `configure` is
evaluated to `sampleEngine1` and `sampleLog1` by `rfl`). -/
theorem c5_configure_idempotent_witness :
    ((akeys emptyEngine.link_table).Nodup ∧
     (akeys emptyEngine.app_table).Nodup ∧
     (akeys sampleConfig.apps).Nodup ∧
     configure emptyEngine sampleConfig = some (sampleEngine1, sampleLog1)) ∧
    (∃ s2 log2, configure sampleEngine1 sampleConfig = some (s2, log2) ∧
      log2.stopped = [] ∧ log2.started = [] ∧ log2.fresh = [] ∧
      s2.link_table = sampleEngine1.link_table ∧
      (∀ n, appView s2.app_table n = appView sampleEngine1.app_table n)) :=
  ⟨⟨by decide, by decide, by decide, rfl⟩,
   c5_configure_idempotent emptyEngine sampleConfig (by decide) (by decide)
     (by decide) sampleEngine1 sampleLog1 rfl⟩

end Rush
